import Mathlib

/-!
# SingleLinkedList: a memory-level model of `single-linked-list.h`

The container is modelled over an explicit store.  Nodes created by `new`
live in a free store (`Mem.heap`) addressed by natural numbers; every list
object lives in an object table (`Mem.objs`) and holds the two mutable fields
of the class: the `next_node` link of its embedded sentinel `head_` and the
counter `size_`.  A `Node*` is either `nullptr`, the address of the sentinel of
a list object, or the address of a free-store node.  Operations are store
transformers that return `Except Fault _`: a failed `assert` and an access
through a null or dangling pointer are faults.

Modelling conventions:
* `new` never fails and never hands out an address twice (`Mem.brk` is the next
  fresh address); `delete` marks the cell dead, so a later access through a
  stale pointer is a fault.
* `size_` is a `size_t`, taken to be 64 bits wide: the increments `++size_` of
  `PushFront` and `InsertAfter` wrap from `SIZE_MAX` to 0.  In `Assign` the
  counter of the temporary list counts the nodes the loop has just allocated,
  one per element of the source range; these nodes are all live at once, so
  there are fewer than `2^64` of them, and that increment is left unreduced.
* the field `head_ptr_` is initialised to `&head_` by its default member
  initialiser in every constructor and is never assigned afterwards (`swap`
  leaves it alone), so it is represented by `NodePtr.head this`.
* loops over node chains carry a fuel argument; the callers pass `brk + 1`,
  which exceeds the length of every chain without repeated nodes.
-/

namespace Sll

/-- A value of type `Node*`. -/
inductive NodePtr where
  | null : NodePtr
  | head (obj : Nat) : NodePtr
  | cell (addr : Nat) : NodePtr
deriving DecidableEq, Repr

/-- The `struct Node` of the source: a value and the link to the next node. -/
structure Node (α : Type) where
  value : α
  next_node : NodePtr

/-- The ways an execution can go wrong. -/
inductive Fault where
  | assertion
  | nullDeref
  | dangling
  | noValue
  | fuel
deriving DecidableEq, Repr

/-- The mutable fields of a list object: `head_.next_node` and `size_`. -/
structure SingleLinkedList where
  head_next : NodePtr
  size_ : Nat
deriving DecidableEq, Repr

/-- The store: free-store cells, the next fresh address, the list objects and
the next fresh object identifier. -/
structure Mem (α : Type) where
  heap : Nat → Option (Node α)
  brk : Nat
  objs : Nat → Option SingleLinkedList
  nobj : Nat

variable {α : Type}

/-- The largest value of `size_t` (64 bits). -/
def SIZE_MAX : Nat := 18446744073709551615

/-- The increment `++size_` on a `size_t`: it wraps from `SIZE_MAX` to 0. -/
def incSize (s : Nat) : Nat := (s + 1) % (SIZE_MAX + 1)

/-- The store of a program that has created nothing yet. -/
def Mem.init : Mem α :=
  { heap := fun _ => none, brk := 0, objs := fun _ => none, nobj := 0 }

/-- Read the fields of the list object `this`. -/
def getObj (m : Mem α) (this : Nat) : Except Fault SingleLinkedList :=
  match m.objs this with
  | some o => .ok o
  | none => .error .dangling

/-- Overwrite the fields of the list object `this`. -/
def setObj (m : Mem α) (this : Nat) (o : SingleLinkedList) : Mem α :=
  { m with objs := Function.update m.objs this (some o) }

/-- The read `p->next_node`. -/
def nextOf (m : Mem α) : NodePtr → Except Fault NodePtr
  | .null => .error .nullDeref
  | .head i =>
    match m.objs i with
    | some o => .ok o.head_next
    | none => .error .dangling
  | .cell a =>
    match m.heap a with
    | some n => .ok n.next_node
    | none => .error .dangling

/-- The write `p->next_node = q`. -/
def setNext (m : Mem α) (p q : NodePtr) : Except Fault (Mem α) :=
  match p with
  | .null => .error .nullDeref
  | .head i =>
    match m.objs i with
    | some o => .ok (setObj m i { o with head_next := q })
    | none => .error .dangling
  | .cell a =>
    match m.heap a with
    | some n => .ok { m with heap := Function.update m.heap a (some { n with next_node := q }) }
    | none => .error .dangling

/-- The read `p->value`.  The sentinel's `value` is default-initialised and
holds no element, so reading it yields no value. -/
def valueOf (m : Mem α) : NodePtr → Except Fault α
  | .null => .error .nullDeref
  | .head _ => .error .noValue
  | .cell a =>
    match m.heap a with
    | some n => .ok n.value
    | none => .error .dangling

/-- The expression `new Node(val, next)`. -/
def newNode (m : Mem α) (val : α) (next : NodePtr) : Mem α × NodePtr :=
  ({ m with heap := Function.update m.heap m.brk (some ⟨val, next⟩), brk := m.brk + 1 },
    .cell m.brk)

/-- The statement `delete p`. -/
def deleteNode (m : Mem α) : NodePtr → Except Fault (Mem α)
  | .null => .ok m
  | .head _ => .error .dangling
  | .cell a =>
    match m.heap a with
    | some _ => .ok { m with heap := Function.update m.heap a none }
    | none => .error .dangling

/-! ## BasicIterator -/

/-- The class `BasicIterator`: a wrapper around `Node* node_`. -/
structure BasicIterator where
  node_ : NodePtr
deriving DecidableEq, Repr

/-- The pre-increment `operator++`. -/
def BasicIterator.incr (m : Mem α) (it : BasicIterator) : Except Fault BasicIterator :=
  if it.node_ = .null then .error .assertion
  else
    match nextOf m it.node_ with
    | .ok p => .ok ⟨p⟩
    | .error e => .error e

/-- The dereference `operator*`. -/
def BasicIterator.deref (m : Mem α) (it : BasicIterator) : Except Fault α :=
  if it.node_ = .null then .error .assertion
  else valueOf m it.node_

/-! ## SingleLinkedList: construction, observers, mutators -/

/-- Storage for a fresh list object with its default member initialisers
(`head_.next_node = nullptr`, `size_ = 0`); also the default constructor. -/
def newObj (m : Mem α) : Mem α × Nat :=
  ({ m with objs := Function.update m.objs m.nobj (some ⟨.null, 0⟩), nobj := m.nobj + 1 },
    m.nobj)

/-- The member `begin()` / `cbegin()`. -/
def begin (m : Mem α) (this : Nat) : Except Fault BasicIterator :=
  match getObj m this with
  | .ok o => .ok ⟨o.head_next⟩
  | .error e => .error e

/-- The member `end()` / `cend()`. -/
def end_ : BasicIterator := ⟨.null⟩

/-- The member `before_begin()` / `cbefore_begin()`. -/
def before_begin (this : Nat) : BasicIterator := ⟨.head this⟩

/-- The member `GetSize()`. -/
def GetSize (m : Mem α) (this : Nat) : Except Fault Nat :=
  match getObj m this with
  | .ok o => .ok o.size_
  | .error e => .error e

/-- The member `IsEmpty()`. -/
def IsEmpty (m : Mem α) (this : Nat) : Except Fault Bool :=
  match getObj m this with
  | .ok o => .ok (o.size_ == 0)
  | .error e => .error e

/-- The member `swap(other)`. -/
def swap (m : Mem α) (this other : Nat) : Except Fault (Mem α) := do
  let a ← getObj m this
  let b ← getObj m other
  let m1 := setObj m this { a with head_next := b.head_next }
  let b1 ← getObj m1 other
  let m2 := setObj m1 other { b1 with head_next := a.head_next }
  let a2 ← getObj m2 this
  let b2 ← getObj m2 other
  let m3 := setObj m2 this { a2 with size_ := b2.size_ }
  let b3 ← getObj m3 other
  pure (setObj m3 other { b3 with size_ := a2.size_ })

/-- The member `PushFront(value)`. -/
def PushFront (m : Mem α) (this : Nat) (value : α) : Except Fault (Mem α) := do
  let o ← getObj m this
  let (m1, n) := newNode m value o.head_next
  let o1 ← getObj m1 this
  let m2 := setObj m1 this { o1 with head_next := n }
  let o2 ← getObj m2 this
  pure (setObj m2 this { o2 with size_ := incSize o2.size_ })

/-- The `while` loop of `Clear()`. -/
def ClearLoop : Nat → Mem α → Nat → Except Fault (Mem α)
  | 0, _, _ => .error .fuel
  | fuel + 1, m, this => do
    let o ← getObj m this
    if o.head_next ≠ .null then
      let temp ← nextOf m o.head_next
      let m1 ← deleteNode m o.head_next
      let o1 ← getObj m1 this
      ClearLoop fuel (setObj m1 this { o1 with head_next := temp }) this
    else
      pure m

/-- The member `Clear()`. -/
def Clear (m : Mem α) (this : Nat) : Except Fault (Mem α) := do
  let e ← IsEmpty m this
  if e then
    pure m
  else
    let m1 ← ClearLoop (m.brk + 1) m this
    let o ← getObj m1 this
    pure (setObj m1 this { o with size_ := 0 })

/-- The member `InsertAfter(pos, value)`. -/
def InsertAfter (m : Mem α) (this : Nat) (pos : BasicIterator) (value : α) :
    Except Fault (Mem α × BasicIterator) := do
  if pos.node_ = .null then throw .assertion
  let nx ← nextOf m pos.node_
  let (m1, n) := newNode m value nx
  let m2 ← setNext m1 pos.node_ n
  let o ← getObj m2 this
  let m3 := setObj m2 this { o with size_ := incSize o.size_ }
  let r ← nextOf m3 pos.node_
  pure (m3, ⟨r⟩)

/-- The member `PopFront()`. -/
def PopFront (m : Mem α) (this : Nat) : Except Fault (Mem α) := do
  let e ← IsEmpty m this
  if e then
    pure m
  else
    let o ← getObj m this
    let to_delete := o.head_next
    let nx ← nextOf m to_delete
    let m1 := setObj m this { o with head_next := nx }
    let m2 ← deleteNode m1 to_delete
    let o2 ← getObj m2 this
    pure (setObj m2 this { o2 with size_ := o2.size_ - 1 })

/-- The member `EraseAfter(pos)`. -/
def EraseAfter (m : Mem α) (this : Nat) (pos : BasicIterator) :
    Except Fault (Mem α × BasicIterator) := do
  if pos.node_ = .null then throw .assertion
  let nx ← nextOf m pos.node_
  if nx = .null then throw .assertion
  let o ← getObj m this
  if o.size_ = 0 then throw .assertion
  let node_to_delete := nx
  let nn ← nextOf m node_to_delete
  let m1 ← setNext m pos.node_ nn
  let m2 ← deleteNode m1 node_to_delete
  let r ← nextOf m2 pos.node_
  pure (m2, ⟨r⟩)

/-- The destructor: `Clear()`, then the object's storage is gone. -/
def destroy (m : Mem α) (this : Nat) : Except Fault (Mem α) := do
  let m1 ← Clear m this
  pure { m1 with objs := Function.update m1.objs this none }

/-! ## Assign and the constructors built on it -/

/-- The operations `Assign` uses of its iterator type `It`:
`from != to`, `*from` and `++from`. -/
structure InputIt (α It : Type) where
  ne : It → It → Bool
  deref : Mem α → It → Except Fault α
  incr : Mem α → It → Except Fault It

/-- Iterators of a `std::initializer_list`: positions in the backing array. -/
def arrayIt (values : List α) : InputIt α Nat where
  ne := fun i j => i != j
  deref := fun _ i =>
    match values[i]? with
    | some v => .ok v
    | none => .error .dangling
  incr := fun _ i => .ok (i + 1)

/-- Iterators of a list: `ConstIterator`. -/
def listIt : InputIt α BasicIterator where
  ne := fun i j => i != j
  deref := fun m it => it.deref m
  incr := fun m it => it.incr m

/-- The `while` loop of `Assign`.  The variable `Node** node_ptr` always points
at the `next_node` field of a node; it is represented by that node.  The
counter `tmp.size_` starts at 0 and counts the nodes this loop allocates, all
live at once, so `++tmp.size_` stays below `2^64` and is not reduced. -/
def AssignLoop {It : Type} (I : InputIt α It) :
    Nat → Mem α → Nat → NodePtr → It → It → Except Fault (Mem α)
  | 0, _, _, _, _, _ => .error .fuel
  | fuel + 1, m, tmp, node_ptr, frm, to_ =>
    if I.ne frm to_ then do
      let v ← I.deref m frm
      let (m1, n) := newNode m v .null
      let m2 ← setNext m1 node_ptr n
      let t ← getObj m2 tmp
      let m3 := setObj m2 tmp { t with size_ := t.size_ + 1 }
      let node_ptr1 ← nextOf m3 node_ptr
      let frm1 ← I.incr m3 frm
      AssignLoop I fuel m3 tmp node_ptr1 frm1 to_
    else
      pure m

/-- The private member template `Assign(from, to)`. -/
def Assign {It : Type} (I : InputIt α It) (fuel : Nat) (m : Mem α) (this : Nat)
    (frm to_ : It) : Except Fault (Mem α) := do
  let (m0, tmp) := newObj m
  let m1 ← AssignLoop I fuel m0 tmp (.head tmp) frm to_
  let m2 ← swap m1 this tmp
  destroy m2 tmp

/-- The default constructor `SingleLinkedList()`. -/
def ctorDefault (m : Mem α) : Mem α × Nat := newObj m

/-- The constructor `SingleLinkedList(std::initializer_list<Type> values)`. -/
def ctorInit (m : Mem α) (values : List α) : Except Fault (Mem α × Nat) := do
  let (m0, this) := newObj m
  let m1 ← Assign (arrayIt values) (values.length + 1) m0 this 0 values.length
  pure (m1, this)

/-- The copy constructor `SingleLinkedList(const SingleLinkedList& other)`. -/
def ctorCopy (m : Mem α) (other : Nat) : Except Fault (Mem α × Nat) := do
  let (m0, this) := newObj m
  let b ← begin m0 other
  let m1 ← Assign listIt (m0.brk + 1) m0 this b end_
  pure (m1, this)

/-- The copy assignment `operator=(rhs)`. -/
def copyAssign (m : Mem α) (this rhs : Nat) : Except Fault (Mem α) :=
  if this ≠ rhs then do
    let (m1, rhs_copy) ← ctorCopy m rhs
    let m2 ← swap m1 this rhs_copy
    destroy m2 rhs_copy
  else
    pure m

/-! ## Observation: walking a list with its iterators -/

/-- The values seen by `for (it = first; it != last; ++it) out.push_back(*it)`. -/
def collect : Nat → Mem α → BasicIterator → BasicIterator → Except Fault (List α)
  | 0, _, _, _ => .error .fuel
  | fuel + 1, m, it, last =>
    if it ≠ last then do
      let v ← it.deref m
      let it1 ← it.incr m
      let rest ← collect fuel m it1 last
      pure (v :: rest)
    else
      pure []

/-- The element sequence of list `this`: iteration from `begin()` to `end()`. -/
def toList (m : Mem α) (this : Nat) : Except Fault (List α) := do
  let b ← begin m this
  collect (m.brk + 1) m b end_

/-- The number of `next_node` links followed from `p` until `nullptr`. -/
def countFrom : Nat → Mem α → NodePtr → Except Fault Nat
  | 0, _, _ => .error .fuel
  | fuel + 1, m, p =>
    if p ≠ .null then do
      let q ← nextOf m p
      let k ← countFrom fuel m q
      pure (k + 1)
    else
      pure 0

/-- The number of element nodes reachable from the sentinel of `this`. -/
def nodeCount (m : Mem α) (this : Nat) : Except Fault Nat := do
  let p ← nextOf m (.head this)
  countFrom (m.brk + 1) m p

/-! ## Comparison operators -/

/-- The standard algorithm `std::equal(first1, last1, first2)`: it walks the
first range and compares it with as many elements starting at `first2`. -/
def std_equal [DecidableEq α] :
    Nat → Mem α → BasicIterator → BasicIterator → BasicIterator → Except Fault Bool
  | 0, _, _, _, _ => .error .fuel
  | fuel + 1, m, first1, last1, first2 =>
    if first1 ≠ last1 then do
      let x ← first1.deref m
      let y ← first2.deref m
      if ¬ (x = y) then
        pure false
      else
        let n1 ← first1.incr m
        let n2 ← first2.incr m
        std_equal fuel m n1 last1 n2
    else
      pure true

/-- The standard algorithm
`std::lexicographical_compare(first1, last1, first2, last2)`. -/
def std_lexicographical_compare [LT α] [DecidableRel (fun a b : α => a < b)] :
    Nat → Mem α → BasicIterator → BasicIterator → BasicIterator → BasicIterator →
      Except Fault Bool
  | 0, _, _, _, _, _ => .error .fuel
  | fuel + 1, m, first1, last1, first2, last2 =>
    if first1 ≠ last1 ∧ first2 ≠ last2 then do
      let x ← first1.deref m
      let y ← first2.deref m
      if x < y then
        pure true
      else if y < x then
        pure false
      else
        let n1 ← first1.incr m
        let n2 ← first2.incr m
        std_lexicographical_compare fuel m n1 last1 n2 last2
    else
      pure (decide (first1 = last1 ∧ first2 ≠ last2))

/-- The free function `operator==`. -/
def operatorEq [DecidableEq α] (m : Mem α) (lhs rhs : Nat) : Except Fault Bool := do
  let b1 ← begin m lhs
  let b2 ← begin m rhs
  std_equal (m.brk + 1) m b1 end_ b2

/-- The free function `operator!=`. -/
def operatorNe [DecidableEq α] (m : Mem α) (lhs rhs : Nat) : Except Fault Bool := do
  let r ← operatorEq m lhs rhs
  pure (!r)

/-- The free function `operator<`. -/
def operatorLt [LT α] [DecidableRel (fun a b : α => a < b)] (m : Mem α) (lhs rhs : Nat) :
    Except Fault Bool := do
  let b1 ← begin m lhs
  let b2 ← begin m rhs
  std_lexicographical_compare (m.brk + 1) m b1 end_ b2 end_

/-- The free function `operator<=`. -/
def operatorLe [LT α] [DecidableRel (fun a b : α => a < b)] (m : Mem α) (lhs rhs : Nat) :
    Except Fault Bool := do
  let r ← operatorLt m rhs lhs
  pure (!r)

/-- The free function `operator>`. -/
def operatorGt [LT α] [DecidableRel (fun a b : α => a < b)] (m : Mem α) (lhs rhs : Nat) :
    Except Fault Bool :=
  operatorLt m rhs lhs

/-- The free function `operator>=`. -/
def operatorGe [LT α] [DecidableRel (fun a b : α => a < b)] (m : Mem α) (lhs rhs : Nat) :
    Except Fault Bool := do
  let r ← operatorLt m lhs rhs
  pure (!r)

/-! ## Specification vocabulary -/

/-- The addresses of a list of cells. -/
abbrev addrs (cells : List (Nat × α)) : List Nat := cells.map Prod.fst

/-- The values of a list of cells. -/
abbrev vals (cells : List (Nat × α)) : List α := cells.map Prod.snd

/-- The statement `IsSeg heap p cells q`: following `next_node` from `p` visits exactly
the live cells `cells` (address and value, in order) and arrives at `q`. -/
def IsSeg (heap : Nat → Option (Node α)) : NodePtr → List (Nat × α) → NodePtr → Prop
  | p, [], q => p = q
  | p, c :: t, q => ∃ nx, p = .cell c.1 ∧ heap c.1 = some ⟨c.2, nx⟩ ∧ IsSeg heap nx t q

/-- List object `this` is live, its counter is `sz`, and its chain consists of
the cells `cells`, pairwise distinct and all allocated. -/
structure Owns (m : Mem α) (this : Nat) (cells : List (Nat × α)) (sz : Nat) : Prop where
  obj : ∃ p, m.objs this = some ⟨p, sz⟩ ∧ IsSeg m.heap p cells .null
  nodup : (addrs cells).Nodup
  lt_brk : ∀ a ∈ addrs cells, a < m.brk

/-- From `m` to `n` only object `this`, the cells in `A` and fresh cells changed. -/
structure Frame (m n : Mem α) (this : Nat) (A : List Nat) : Prop where
  objs : ∀ j, j ≠ this → n.objs j = m.objs j
  heap : ∀ a, a < m.brk → a ∉ A → n.heap a = m.heap a
  brk : m.brk ≤ n.brk
  nobj : n.nobj = m.nobj

/-- The pointer to the first cell of a chain. -/
def headPtr : List (Nat × α) → NodePtr
  | [] => .null
  | c :: _ => .cell c.1

/-- The node whose `next_node` field ends the chain `cells` of object `tmp`. -/
def lastPtr (tmp : Nat) (cells : List (Nat × α)) : NodePtr :=
  match cells.getLast? with
  | none => .head tmp
  | some c => .cell c.1

/-- What `Assign` needs of an iterator range: `R m it xs` says that in store `m`
the range from `it` to `to_` holds the values `xs`, and that this only depends
on the cells below `B0`. -/
structure ItSpec {It : Type} (I : InputIt α It) (to_ : It) (B0 : Nat)
    (R : Mem α → It → List α → Prop) : Prop where
  nil : ∀ m it, R m it [] → I.ne it to_ = false
  cons : ∀ m it x xs, R m it (x :: xs) →
    I.ne it to_ = true ∧ I.deref m it = .ok x ∧ ∃ it1, I.incr m it = .ok it1 ∧ R m it1 xs
  stable : ∀ m n it xs, (∀ a, a < B0 → n.heap a = m.heap a) → R m it xs → R n it xs

/-- A coarser frame for operations that also create and destroy temporaries:
an object other than `this` is unchanged, or it did not exist before and does
not exist afterwards. -/
structure Effect (m n : Mem α) (this : Nat) (A : List Nat) : Prop where
  objs : ∀ j, j ≠ this → n.objs j = m.objs j ∨ (m.nobj ≤ j ∧ n.objs j = none)
  heap : ∀ a, a < m.brk → a ∉ A → n.heap a = m.heap a
  brk : m.brk ≤ n.brk
  nobj : m.nobj ≤ n.nobj

/-- The representation invariant of a store: `own i` lists the cells of the
chain of object `i`.  Every live object owns a well-formed chain, chains of
different objects share no cell, and object identifiers from `nobj` on are
unused.  The counter of an object is not tied to the length of its chain. -/
structure Rep (m : Mem α) (own : Nat → List (Nat × α)) : Prop where
  owns : ∀ i o, m.objs i = some o → Owns m i (own i) o.size_
  dead : ∀ i, m.objs i = none → own i = []
  disj : ∀ i j, i ≠ j → ∀ a, a ∈ addrs (own i) → a ∉ addrs (own j)
  lt_nobj : ∀ i, m.nobj ≤ i → m.objs i = none

/-- The store is well formed. -/
def Inv (m : Mem α) : Prop := ∃ own, Rep m own

/-- The iterator reached from `it` by `k` applications of `operator++`. -/
def advance (m : Mem α) : Nat → BasicIterator → Except Fault BasicIterator
  | 0, it => .ok it
  | k + 1, it =>
    match it.incr m with
    | .ok it1 => advance m k it1
    | .error e => .error e

/-- The iterator `pos` is a position of list `this` other than `end()`: it is
reached from `before_begin()` by finitely many increments. -/
def IsPos (m : Mem α) (this : Nat) (pos : BasicIterator) : Prop :=
  pos ≠ end_ ∧ ∃ k, advance m k (before_begin this) = .ok pos

/-- The public operations of the class. -/
inductive Op (α : Type) where
  | ctorDefault : Op α
  | ctorInit (values : List α) : Op α
  | ctorCopy (other : Nat) : Op α
  | copyAssign (this rhs : Nat) : Op α
  | swap (this other : Nat) : Op α
  | PushFront (this : Nat) (value : α) : Op α
  | PopFront (this : Nat) : Op α
  | InsertAfter (this : Nat) (pos : BasicIterator) (value : α) : Op α
  | EraseAfter (this : Nat) (pos : BasicIterator) : Op α
  | Clear (this : Nat) : Op α
  | destroy (this : Nat) : Op α

/-- The store after a public operation. -/
def Op.run (m : Mem α) : Op α → Except Fault (Mem α)
  | .ctorDefault => .ok (Sll.ctorDefault m).1
  | .ctorInit values => (Sll.ctorInit m values).map Prod.fst
  | .ctorCopy other => (Sll.ctorCopy m other).map Prod.fst
  | .copyAssign this rhs => Sll.copyAssign m this rhs
  | .swap this other => Sll.swap m this other
  | .PushFront this value => Sll.PushFront m this value
  | .PopFront this => Sll.PopFront m this
  | .InsertAfter this pos value => (Sll.InsertAfter m this pos value).map Prod.fst
  | .EraseAfter this pos => (Sll.EraseAfter m this pos).map Prod.fst
  | .Clear this => Sll.Clear m this
  | .destroy this => Sll.destroy m this

/-- The precondition of a public operation on its position argument: the
position belongs to the list the operation is applied to. -/
def Op.pre (m : Mem α) : Op α → Prop
  | .InsertAfter this pos _ => IsPos m this pos
  | .EraseAfter this pos => IsPos m this pos
  | _ => True

/-- The stores a program can reach from the empty store by public operations
called within their preconditions and without a fault. -/
inductive Reachable : Mem α → Prop where
  | init : Reachable Mem.init
  | step {m n : Mem α} (op : Op α) : Reachable m → op.pre m → op.run m = .ok n → Reachable n

/-- The loop of `std::lexicographical_compare` on two plain sequences. -/
def lexLt [LT α] [DecidableRel (fun a b : α => a < b)] : List α → List α → Bool
  | [], [] => false
  | [], _ :: _ => true
  | _ :: _, [] => false
  | x :: xs, y :: ys => if x < y then true else if y < x then false else lexLt xs ys

/-- Run a sequence of public operations, stopping at the first fault. -/
def runOps (m : Mem α) : List (Op α) → Except Fault (Mem α)
  | [] => .ok m
  | op :: rest =>
    match op.run m with
    | .ok n => runOps n rest
    | .error e => .error e

/-- The preconditions of a sequence of operations hold along its run. -/
def PreAll (m : Mem α) : List (Op α) → Prop
  | [] => True
  | op :: rest =>
    op.pre m ∧
      match op.run m with
      | .ok n => PreAll n rest
      | .error _ => True

/-- The store of a run that did not fault. -/
def memOf (r : Except Fault (Mem α)) : Mem α :=
  match r with
  | .ok m => m
  | .error _ => Mem.init

/-- What a client sees of list `this` after a run: its elements and `GetSize()`. -/
def observe (r : Except Fault (Mem α)) (this : Nat) : Except Fault (List α × Nat) := do
  let m ← r
  let xs ← toList m this
  let s ← GetSize m this
  pure (xs, s)

/-- A store with the lists `{1}` (object 0) and `{1, 2}` (object 2). -/
def memShortLong : Mem Nat :=
  memOf (runOps Mem.init [.ctorInit [1], .ctorInit [1, 2]])

/-- A store with the lists `{1,2,3}`, `{1,2,4}`, `{1,2}`, `{}` and `{1}`
(objects 0, 2, 4, 6 and 8). -/
def memFive : Mem Nat :=
  memOf (runOps Mem.init
    [.ctorInit [1, 2, 3], .ctorInit [1, 2, 4], .ctorInit [1, 2], .ctorInit [], .ctorInit [1]])

/-- The store after `PushFront(1); EraseAfter(before_begin())` on a
default-constructed list (object 0). -/
def memErased : Mem Nat :=
  memOf (runOps Mem.init [.ctorDefault, .PushFront 0 1, .EraseAfter 0 (before_begin 0)])

/-- The store after `PushFront(1); PushFront(2); EraseAfter(before_begin())` on a
default-constructed list (object 0): one node, counter 2. -/
def memStale : Mem Nat :=
  memOf (runOps Mem.init
    [.ctorDefault, .PushFront 0 1, .PushFront 0 2, .EraseAfter 0 (before_begin 0)])

/-- A store with the list `{1, 2, 3}` (object 0). -/
def mem123 : Mem Nat :=
  memOf (runOps Mem.init [.ctorInit [1, 2, 3]])

/-- The free function `swap(lhs, rhs)`, which calls the member `swap`. -/
def freeSwap (m : Mem α) (lhs rhs : Nat) : Except Fault (Mem α) :=
  swap m lhs rhs

/-- The loop of `std::equal(first1, last1, first2)` on two plain sequences:
the second sequence is read at every position of the first one, and reading
past its end is the failed assertion of `operator*`. -/
def equalSpec [DecidableEq α] : List α → List α → Except Fault Bool
  | [], _ => .ok true
  | _ :: _, [] => .error .assertion
  | x :: xs, y :: ys => if x = y then equalSpec xs ys else .ok false

/-- The list a mutating member function is applied to. -/
def Op.mutates : Op α → Option Nat
  | .PushFront this _ => some this
  | .PopFront this => some this
  | .InsertAfter this _ _ => some this
  | .EraseAfter this _ => some this
  | .Clear this => some this
  | _ => none

/-- An element type whose `<` compares the keys only: a strict weak order in
which two different elements can be equivalent (neither is less). -/
structure Keyed where
  key : Nat
  tag : Nat
deriving DecidableEq, Repr

/-- The order of `Keyed`: by key. -/
instance Keyed.instLt : LT Keyed := ⟨fun a b => a.key < b.key⟩

/-- The order of `Keyed` is decidable. -/
instance Keyed.decLt : DecidableRel (fun a b : Keyed => a < b) :=
  fun a b => Nat.decLt a.key b.key

/-- A store with the lists `{(1,0), (2,0)}` (object 0) and `{(1,1), (3,0)}`
(object 2) of keyed elements. -/
def memKeyed : Mem Keyed :=
  memOf (runOps Mem.init [.ctorInit [⟨1, 0⟩, ⟨2, 0⟩], .ctorInit [⟨1, 1⟩, ⟨3, 0⟩]])

/-- The store after `PushFront(1)` on a default-constructed list (object 0). -/
def memOne : Mem Nat :=
  memOf (runOps Mem.init [.ctorDefault, .PushFront 0 1])

/-- The store after `PushFront(1)` and `SIZE_MAX - 1` rounds of
`InsertAfter(before_begin(), 0); EraseAfter(before_begin())` on a
default-constructed list (object 0): the list holds `[1]`, every round has
allocated and freed one cell, and the counter, incremented by every
`InsertAfter` and never decremented, stands at `SIZE_MAX`. -/
def memFull : Mem Nat :=
  { memOne with
    brk := memOne.brk + (SIZE_MAX - 1)
    objs := Function.update memOne.objs 0 (some ⟨.cell 0, 1 + (SIZE_MAX - 1)⟩) }

/-- The store after one more `PushFront(7)`: the list holds `[7, 1]` and the
counter has wrapped to 0. -/
def memWrapped : Mem Nat :=
  memOf (PushFront memFull 0 7)

/-! ## Chains of nodes -/

theorem IsSeg_cons {h : Nat → Option (Node α)} {c : Nat × α} {t : List (Nat × α)}
    {p q : NodePtr} :
    IsSeg h p (c :: t) q ↔ ∃ nx, p = .cell c.1 ∧ h c.1 = some ⟨c.2, nx⟩ ∧ IsSeg h nx t q :=
  Iff.rfl

theorem IsSeg_nil {h : Nat → Option (Node α)} {p q : NodePtr} : IsSeg h p [] q ↔ p = q :=
  Iff.rfl

theorem IsSeg.frame {h1 h2 : Nat → Option (Node α)} {cells : List (Nat × α)} {p q : NodePtr}
    (hs : IsSeg h1 p cells q) (hf : ∀ a ∈ addrs cells, h2 a = h1 a) : IsSeg h2 p cells q := by
  induction cells generalizing p with
  | nil => exact hs
  | cons c t ih =>
    obtain ⟨nx, hp, hc, ht⟩ := hs
    refine ⟨nx, hp, ?_, ih ht fun a ha => hf a (by simp [addrs] at ha ⊢; exact Or.inr ha)⟩
    rw [hf c.1 (by simp [addrs])]; exact hc

theorem IsSeg.append {h : Nat → Option (Node α)} {c1 c2 : List (Nat × α)} {p q : NodePtr} :
    IsSeg h p (c1 ++ c2) q ↔ ∃ r, IsSeg h p c1 r ∧ IsSeg h r c2 q := by
  induction c1 generalizing p with
  | nil => simp [IsSeg]
  | cons c t ih =>
    rw [List.cons_append, IsSeg_cons]
    constructor
    · rintro ⟨nx, hp, hc, hr⟩
      obtain ⟨r, h1, h2⟩ := ih.1 hr
      exact ⟨r, ⟨nx, hp, hc, h1⟩, h2⟩
    · rintro ⟨r, ⟨nx, hp, hc, h1⟩, h2⟩
      exact ⟨nx, hp, hc, ih.2 ⟨r, h1, h2⟩⟩

theorem IsSeg.unique {h : Nat → Option (Node α)} {c1 c2 : List (Nat × α)} {p : NodePtr}
    (h1 : IsSeg h p c1 .null) (h2 : IsSeg h p c2 .null) : c1 = c2 := by
  induction c1 generalizing p c2 with
  | nil =>
    cases c2 with
    | nil => rfl
    | cons d t =>
      obtain ⟨nx, hp, _, _⟩ := h2
      simp only [IsSeg] at h1
      rw [h1] at hp; cases hp
  | cons c t ih =>
    obtain ⟨nx, hp, hc, ht⟩ := h1
    cases c2 with
    | nil => simp only [IsSeg] at h2; rw [h2] at hp; cases hp
    | cons d u =>
      obtain ⟨nx2, hp2, hd, hu⟩ := h2
      rw [hp] at hp2
      have hcd : c.1 = d.1 := NodePtr.cell.inj hp2
      rw [← hcd, hc] at hd
      have hnode := Option.some.inj hd
      have hv : c.2 = d.2 := congrArg Node.value hnode
      have hn : nx = nx2 := congrArg Node.next_node hnode
      subst hn
      rw [ih ht hu]
      congr 1
      exact Prod.ext hcd hv

theorem length_le_of_nodup_lt {l : List Nat} {b : Nat} (hn : l.Nodup) (hb : ∀ a ∈ l, a < b) :
    l.length ≤ b := by
  have := (List.subperm_of_subset hn (fun a ha => List.mem_range.2 (hb a ha))).length_le
  simpa using this

theorem Owns.length_le {m : Mem α} {this : Nat} {cells : List (Nat × α)} {sz : Nat}
    (h : Owns m this cells sz) : cells.length ≤ m.brk := by
  have := length_le_of_nodup_lt h.nodup h.lt_brk
  simpa [addrs] using this

/-! ### Walking a chain -/

theorem collect_of_seg {m : Mem α} {cells : List (Nat × α)} :
    ∀ {fuel : Nat} {p : NodePtr}, IsSeg m.heap p cells .null → cells.length < fuel →
      collect fuel m ⟨p⟩ end_ = .ok (vals cells) := by
  induction cells with
  | nil =>
    intro fuel p hs hf
    cases fuel with
    | zero => omega
    | succ f =>
      simp only [IsSeg] at hs
      subst hs
      simp [collect, end_]
      rfl
  | cons c t ih =>
    intro fuel p hs hf
    obtain ⟨nx, hp, hc, ht⟩ := hs
    cases fuel with
    | zero => omega
    | succ f =>
      subst hp
      have := ih ht (by simpa using hf)
      simp [collect, end_, BasicIterator.deref, BasicIterator.incr, valueOf, nextOf, hc,
        bind, Except.bind, pure, Except.pure]
      simp [end_] at this
      rw [this]

theorem count_of_seg {m : Mem α} {cells : List (Nat × α)} :
    ∀ {fuel : Nat} {p : NodePtr}, IsSeg m.heap p cells .null → cells.length < fuel →
      countFrom fuel m p = .ok cells.length := by
  induction cells with
  | nil =>
    intro fuel p hs hf
    cases fuel with
    | zero => omega
    | succ f =>
      simp only [IsSeg] at hs
      subst hs
      simp [countFrom]
      rfl
  | cons c t ih =>
    intro fuel p hs hf
    obtain ⟨nx, hp, hc, ht⟩ := hs
    cases fuel with
    | zero => omega
    | succ f =>
      subst hp
      have := ih ht (by simpa using hf)
      simp [countFrom, nextOf, hc, bind, Except.bind, pure, Except.pure, this]

theorem toList_of_owns {m : Mem α} {this : Nat} {cells : List (Nat × α)} {sz : Nat}
    (h : Owns m this cells sz) : toList m this = .ok (vals cells) := by
  obtain ⟨p, ho, hs⟩ := h.obj
  have := collect_of_seg hs (Nat.lt_succ_of_le h.length_le)
  simp [toList, begin, getObj, ho, bind, Except.bind, this]

theorem GetSize_of_owns {m : Mem α} {this : Nat} {cells : List (Nat × α)} {sz : Nat}
    (h : Owns m this cells sz) : GetSize m this = .ok sz := by
  obtain ⟨p, ho, -⟩ := h.obj
  simp [GetSize, getObj, ho]

theorem nodeCount_of_owns {m : Mem α} {this : Nat} {cells : List (Nat × α)} {sz : Nat}
    (h : Owns m this cells sz) : nodeCount m this = .ok cells.length := by
  obtain ⟨p, ho, hs⟩ := h.obj
  have := count_of_seg hs (Nat.lt_succ_of_le h.length_le)
  simp [nodeCount, nextOf, ho, bind, Except.bind, this]

/-! ## The effect of the straight-line operations -/

theorem IsSeg.headPtr_eq {h : Nat → Option (Node α)} {cells : List (Nat × α)} {p : NodePtr}
    (hs : IsSeg h p cells .null) : p = headPtr cells := by
  cases cells with
  | nil => exact hs
  | cons c t => obtain ⟨nx, hp, -, -⟩ := hs; exact hp

theorem PushFront_eq {m : Mem α} {this : Nat} {p : NodePtr} {sz : Nat} (v : α)
    (ho : m.objs this = some ⟨p, sz⟩) :
    PushFront m this v = .ok
      { heap := Function.update m.heap m.brk (some ⟨v, p⟩), brk := m.brk + 1,
        objs := Function.update m.objs this (some ⟨.cell m.brk, incSize sz⟩),
        nobj := m.nobj } := by
  simp [PushFront, getObj, ho, newNode, setObj, bind, Except.bind, pure, Except.pure]

theorem PushFront_owns {m : Mem α} {this : Nat} {cells : List (Nat × α)} {sz : Nat} (v : α)
    (h : Owns m this cells sz) :
    ∃ n, PushFront m this v = .ok n ∧ Owns n this ((m.brk, v) :: cells) (incSize sz) ∧
      Frame m n this [] ∧ n.brk = m.brk + 1 := by
  obtain ⟨p, ho, hs⟩ := h.obj
  refine ⟨_, PushFront_eq v ho, ⟨⟨.cell m.brk, ?_, ?_⟩, ?_, ?_⟩, ⟨?_, ?_, ?_, ?_⟩, ?_⟩
  · simp
  · refine ⟨p, rfl, by simp, ?_⟩
    apply hs.frame
    intro a ha
    have := h.lt_brk a ha
    simp [Function.update_noteq (Nat.ne_of_lt this)]
  · have : m.brk ∉ addrs cells := fun hm => Nat.lt_irrefl _ (h.lt_brk _ hm)
    exact List.nodup_cons.2 ⟨this, h.nodup⟩
  · intro a ha
    rcases List.mem_cons.1 ha with rfl | hb
    · simp
    · have := h.lt_brk a hb
      simp; omega
  · intro j hj; simp [Function.update_noteq hj]
  · intro a ha _; simp [Function.update_noteq (Nat.ne_of_lt ha)]
  · simp
  · simp
  · simp

theorem PopFront_empty {m : Mem α} {this : Nat} {p : NodePtr}
    (ho : m.objs this = some ⟨p, 0⟩) : PopFront m this = .ok m := by
  simp [PopFront, IsEmpty, getObj, ho, bind, Except.bind, pure, Except.pure]

theorem PopFront_null {m : Mem α} {this : Nat} {sz : Nat}
    (ho : m.objs this = some ⟨.null, sz⟩) (hsz : sz ≠ 0) :
    PopFront m this = .error .nullDeref := by
  simp [PopFront, IsEmpty, getObj, ho, hsz, nextOf, bind, Except.bind, pure, Except.pure]

theorem PopFront_eq {m : Mem α} {this : Nat} {a : Nat} {sz : Nat} {w : α} {nx : NodePtr}
    (ho : m.objs this = some ⟨.cell a, sz⟩) (hsz : sz ≠ 0) (ha : m.heap a = some ⟨w, nx⟩) :
    PopFront m this = .ok
      { heap := Function.update m.heap a none, brk := m.brk,
        objs := Function.update m.objs this (some ⟨nx, sz - 1⟩), nobj := m.nobj } := by
  simp [PopFront, IsEmpty, getObj, ho, hsz, nextOf, ha, setObj, deleteNode, bind, Except.bind,
    pure, Except.pure]

theorem InsertAfter_eq_head {m : Mem α} {this : Nat} {p : NodePtr} {sz : Nat} (v : α)
    (ho : m.objs this = some ⟨p, sz⟩) :
    InsertAfter m this ⟨.head this⟩ v = .ok
      ({ heap := Function.update m.heap m.brk (some ⟨v, p⟩), brk := m.brk + 1,
         objs := Function.update m.objs this (some ⟨.cell m.brk, incSize sz⟩),
         nobj := m.nobj },
        ⟨.cell m.brk⟩) := by
  simp [InsertAfter, getObj, ho, newNode, setObj, setNext, nextOf, bind, Except.bind, pure,
    Except.pure]

theorem InsertAfter_eq_cell {m : Mem α} {this : Nat} {o : SingleLinkedList} {a : Nat} {w : α}
    {nx : NodePtr} (v : α) (ho : m.objs this = some o) (ha : m.heap a = some ⟨w, nx⟩)
    (hab : a ≠ m.brk) :
    InsertAfter m this ⟨.cell a⟩ v = .ok
      ({ heap := Function.update (Function.update m.heap m.brk (some ⟨v, nx⟩)) a
            (some ⟨w, .cell m.brk⟩),
         brk := m.brk + 1,
         objs := Function.update m.objs this (some ⟨o.head_next, incSize o.size_⟩),
         nobj := m.nobj },
        ⟨.cell m.brk⟩) := by
  simp [InsertAfter, getObj, ho, newNode, setObj, setNext, nextOf, ha, hab,
    Function.update_noteq hab, bind, Except.bind, pure, Except.pure]

theorem InsertAfter_null {m : Mem α} {this : Nat} (v : α) :
    InsertAfter m this ⟨.null⟩ v = .error .assertion := by
  simp [InsertAfter, bind, Except.bind, throw, throwThe, MonadExceptOf.throw]

theorem EraseAfter_null {m : Mem α} {this : Nat} :
    EraseAfter m this ⟨.null⟩ = .error .assertion := by
  simp [EraseAfter, bind, Except.bind, throw, throwThe, MonadExceptOf.throw]

theorem EraseAfter_eq_head {m : Mem α} {this : Nat} {a : Nat} {sz : Nat} {w : α} {nx : NodePtr}
    (ho : m.objs this = some ⟨.cell a, sz⟩) (hsz : sz ≠ 0) (ha : m.heap a = some ⟨w, nx⟩) :
    EraseAfter m this ⟨.head this⟩ = .ok
      ({ heap := Function.update m.heap a none, brk := m.brk,
         objs := Function.update m.objs this (some ⟨nx, sz⟩), nobj := m.nobj }, ⟨nx⟩) := by
  simp [EraseAfter, getObj, ho, hsz, nextOf, ha, setObj, setNext, deleteNode, bind, Except.bind,
    pure, Except.pure]

theorem EraseAfter_head_nil {m : Mem α} {this : Nat} {sz : Nat}
    (ho : m.objs this = some ⟨.null, sz⟩) :
    EraseAfter m this ⟨.head this⟩ = .error .assertion := by
  simp [EraseAfter, getObj, ho, nextOf, bind, Except.bind, pure, Except.pure, throw, throwThe,
    MonadExceptOf.throw]

theorem EraseAfter_eq_cell {m : Mem α} {this : Nat} {o : SingleLinkedList} {a b : Nat}
    {w w2 : α} {nx : NodePtr} (ho : m.objs this = some o) (hsz : o.size_ ≠ 0)
    (ha : m.heap a = some ⟨w, .cell b⟩) (hb : m.heap b = some ⟨w2, nx⟩) (hab : a ≠ b) :
    EraseAfter m this ⟨.cell a⟩ = .ok
      ({ heap := Function.update (Function.update m.heap a (some ⟨w, nx⟩)) b none,
         brk := m.brk, objs := m.objs, nobj := m.nobj }, ⟨nx⟩) := by
  simp [EraseAfter, getObj, ho, hsz, nextOf, ha, hb, setObj, setNext, deleteNode, hab,
    Function.update_noteq hab.symm, Function.update_noteq hab, bind, Except.bind, pure,
    Except.pure]

theorem EraseAfter_ok_size {m : Mem α} {this : Nat} {pos : BasicIterator}
    {o : SingleLinkedList} {r : Mem α × BasicIterator} (ho : m.objs this = some o)
    (hn : EraseAfter m this pos = .ok r) : o.size_ ≠ 0 := by
  intro h0
  cases hp : nextOf m pos.node_ with
  | error e =>
    simp [EraseAfter, hp, bind, Except.bind, throw, throwThe, MonadExceptOf.throw, pure,
      Except.pure] at hn
    split at hn <;> simp at hn
  | ok nx =>
    simp [EraseAfter, hp, getObj, ho, h0, bind, Except.bind, throw, throwThe,
      MonadExceptOf.throw, pure, Except.pure] at hn

theorem EraseAfter_size_zero {m : Mem α} {this : Nat} {pos : BasicIterator} {p : NodePtr}
    {nx : NodePtr} (ho : m.objs this = some ⟨p, 0⟩) (hp : nextOf m pos.node_ = .ok nx) :
    EraseAfter m this pos = .error .assertion := by
  simp [EraseAfter, hp, getObj, ho, bind, Except.bind, throw, throwThe, MonadExceptOf.throw,
    pure, Except.pure]

theorem EraseAfter_cell_last {m : Mem α} {this : Nat} {a : Nat} {w : α}
    (ha : m.heap a = some ⟨w, .null⟩) :
    EraseAfter m this ⟨.cell a⟩ = .error .assertion := by
  simp [EraseAfter, nextOf, ha, bind, Except.bind, pure, Except.pure, throw, throwThe,
    MonadExceptOf.throw]

theorem PopFront_owns {m : Mem α} {this : Nat} {c : Nat × α} {t : List (Nat × α)} {sz : Nat}
    (h : Owns m this (c :: t) sz) (hsz : sz ≠ 0) :
    ∃ n, PopFront m this = .ok n ∧ Owns n this t (sz - 1) ∧
      Frame m n this [c.1] ∧ n.brk = m.brk := by
  obtain ⟨p, ho, nx, hp, hc, ht⟩ := h.obj
  subst hp
  have hnd := List.nodup_cons.1 h.nodup
  refine ⟨_, PopFront_eq ho hsz hc, ⟨⟨nx, by simp, ?_⟩, hnd.2, ?_⟩, ⟨?_, ?_, ?_, ?_⟩, ?_⟩
  · apply ht.frame
    intro a ha
    have : a ≠ c.1 := fun e => hnd.1 (e ▸ ha)
    simp [Function.update_noteq this]
  · intro a ha
    exact h.lt_brk a (List.mem_cons_of_mem _ ha)
  · intro j hj; simp [Function.update_noteq hj]
  · intro a _ ha
    have : a ≠ c.1 := by simpa using ha
    simp [Function.update_noteq this]
  · simp
  · simp
  · simp

theorem InsertAfter_head_owns {m : Mem α} {this : Nat} {cells : List (Nat × α)} {sz : Nat}
    (v : α) (h : Owns m this cells sz) :
    ∃ n, InsertAfter m this ⟨.head this⟩ v = .ok (n, ⟨.cell m.brk⟩) ∧
      PushFront m this v = .ok n ∧
      Owns n this ((m.brk, v) :: cells) (incSize sz) ∧ Frame m n this [] ∧
      n.brk = m.brk + 1 := by
  obtain ⟨p, ho, -⟩ := h.obj
  obtain ⟨n, hn, hrest⟩ := PushFront_owns v h
  have e1 := PushFront_eq v ho
  have e2 := InsertAfter_eq_head v ho
  rw [e1] at hn
  cases hn
  exact ⟨_, e2, e1, hrest⟩

theorem InsertAfter_cell_owns {m : Mem α} {this : Nat} {c1 c2 : List (Nat × α)} {c : Nat × α}
    {sz : Nat} (v : α) (h : Owns m this (c1 ++ c :: c2) sz) :
    ∃ n, InsertAfter m this ⟨.cell c.1⟩ v = .ok (n, ⟨.cell m.brk⟩) ∧
      Owns n this (c1 ++ c :: (m.brk, v) :: c2) (incSize sz) ∧
      Frame m n this (addrs (c1 ++ c :: c2)) ∧ n.brk = m.brk + 1 := by
  obtain ⟨p, ho, hs⟩ := h.obj
  obtain ⟨r, h1, nx, hr, hc, h2⟩ := IsSeg.append.1 hs
  subst hr
  have hlt : c.1 < m.brk := h.lt_brk _ (by simp [addrs])
  have hnd : (addrs c1 ++ c.1 :: addrs c2).Nodup := by simpa [addrs] using h.nodup
  have hnd1 := List.nodup_middle.1 hnd
  have hc1 : c.1 ∉ addrs c1 ++ addrs c2 := (List.nodup_cons.1 hnd1).1
  have hbrk : ∀ a, a ∈ addrs (c1 ++ c :: c2) → a ≠ m.brk := fun a ha =>
    Nat.ne_of_lt (h.lt_brk a ha)
  refine ⟨_, InsertAfter_eq_cell v ho hc (Nat.ne_of_lt hlt),
    ⟨⟨p, by simp, ?_⟩, ?_, ?_⟩, ⟨?_, ?_, ?_, ?_⟩, ?_⟩
  · refine IsSeg.append.2 ⟨.cell c.1, h1.frame ?_, .cell m.brk, rfl, by simp, nx, rfl, ?_,
      h2.frame ?_⟩
    · intro a ha
      have e1 : a ≠ c.1 := fun e => hc1 (e ▸ List.mem_append_left _ ha)
      have e2 : a ≠ m.brk := hbrk a (by simp [addrs] at ha ⊢; exact Or.inl ha)
      simp [Function.update_noteq e1, Function.update_noteq e2]
    · simp [Function.update_noteq (Nat.ne_of_lt hlt).symm]
    · intro a ha
      have e1 : a ≠ c.1 := fun e => hc1 (e ▸ List.mem_append_right _ ha)
      have e2 : a ≠ m.brk := hbrk a (by simp [addrs] at ha ⊢; exact Or.inr (Or.inr ha))
      simp [Function.update_noteq e1, Function.update_noteq e2]
  · have e : addrs (c1 ++ c :: (m.brk, v) :: c2) = (addrs c1 ++ [c.1]) ++ m.brk :: addrs c2 := by
      simp [addrs]
    rw [e, List.nodup_middle]
    refine List.nodup_cons.2 ⟨?_, by simpa [addrs] using h.nodup⟩
    intro hm
    exact hbrk m.brk (by simpa [addrs] using hm) rfl
  · intro a ha
    have : a = m.brk ∨ a ∈ addrs (c1 ++ c :: c2) := by
      simp [addrs] at ha ⊢; tauto
    rcases this with rfl | hm
    · simp
    · have := h.lt_brk a hm
      simp; omega
  · intro j hj; simp [Function.update_noteq hj]
  · intro a ha hna
    have e1 : a ≠ c.1 := fun e => hna (by simp [addrs, e])
    simp [Function.update_noteq e1, Function.update_noteq (Nat.ne_of_lt ha)]
  · simp
  · simp
  · simp

theorem EraseAfter_head_owns {m : Mem α} {this : Nat} {d : Nat × α} {c2 : List (Nat × α)}
    {sz : Nat} (h : Owns m this (d :: c2) sz) (hsz : sz ≠ 0) :
    ∃ n, EraseAfter m this ⟨.head this⟩ = .ok (n, ⟨headPtr c2⟩) ∧ Owns n this c2 sz ∧
      Frame m n this [d.1] ∧ n.brk = m.brk := by
  obtain ⟨p, ho, nx, hp, hc, ht⟩ := h.obj
  subst hp
  have hnd := List.nodup_cons.1 h.nodup
  have hnx := ht.headPtr_eq
  subst hnx
  refine ⟨_, EraseAfter_eq_head ho hsz hc, ⟨⟨headPtr c2, by simp, ?_⟩, hnd.2, ?_⟩,
    ⟨?_, ?_, ?_, ?_⟩, ?_⟩
  · apply ht.frame
    intro a ha
    have : a ≠ d.1 := fun e => hnd.1 (e ▸ ha)
    simp [Function.update_noteq this]
  · intro a ha
    exact h.lt_brk a (List.mem_cons_of_mem _ ha)
  · intro j hj; simp [Function.update_noteq hj]
  · intro a _ ha
    have : a ≠ d.1 := by simpa using ha
    simp [Function.update_noteq this]
  · simp
  · simp
  · simp

theorem EraseAfter_cell_owns {m : Mem α} {this : Nat} {c1 c2 : List (Nat × α)} {c d : Nat × α}
    {sz : Nat} (h : Owns m this (c1 ++ c :: d :: c2) sz) (hsz : sz ≠ 0) :
    ∃ n, EraseAfter m this ⟨.cell c.1⟩ = .ok (n, ⟨headPtr c2⟩) ∧
      Owns n this (c1 ++ c :: c2) sz ∧
      Frame m n this (addrs (c1 ++ c :: d :: c2)) ∧ n.brk = m.brk := by
  obtain ⟨p, ho, hs⟩ := h.obj
  obtain ⟨r, h1, nx, hr, hc, nx2, hnx, hd, h2⟩ := IsSeg.append.1 hs
  subst hr hnx
  have hnx2 := h2.headPtr_eq
  subst hnx2
  have hnd : (addrs c1 ++ c.1 :: d.1 :: addrs c2).Nodup := by simpa [addrs] using h.nodup
  have hnd1 := (List.nodup_cons.1 (List.nodup_middle.1 hnd))
  have hc1 : c.1 ∉ addrs c1 ++ d.1 :: addrs c2 := hnd1.1
  have hcd : c.1 ≠ d.1 := fun e => hc1 (by simp [e])
  have hnd2 : (addrs c1 ++ d.1 :: addrs c2).Nodup := hnd1.2
  have hd1 : d.1 ∉ addrs c1 ++ addrs c2 := (List.nodup_cons.1 (List.nodup_middle.1 hnd2)).1
  refine ⟨_, EraseAfter_eq_cell ho hsz hc hd hcd, ⟨⟨p, ho, ?_⟩, ?_, ?_⟩, ⟨?_, ?_, ?_, ?_⟩, ?_⟩
  · refine IsSeg.append.2 ⟨.cell c.1, h1.frame ?_, headPtr c2, rfl, ?_, h2.frame ?_⟩
    · intro a ha
      have e1 : a ≠ c.1 := fun e => hc1 (e ▸ List.mem_append_left _ ha)
      have e2 : a ≠ d.1 := fun e => hd1 (e ▸ List.mem_append_left _ ha)
      simp [Function.update_noteq e1, Function.update_noteq e2]
    · simp [Function.update_noteq hcd]
    · intro a ha
      have e1 : a ≠ c.1 := fun e =>
        hc1 (e ▸ List.mem_append_right _ (List.mem_cons_of_mem _ ha))
      have e2 : a ≠ d.1 := fun e => hd1 (e ▸ List.mem_append_right _ ha)
      simp [Function.update_noteq e1, Function.update_noteq e2]
  · have : (addrs c1 ++ c.1 :: addrs c2).Sublist (addrs c1 ++ c.1 :: d.1 :: addrs c2) :=
      List.Sublist.append (List.Sublist.refl _)
        (List.Sublist.cons₂ _ (List.sublist_cons_self _ _))
    simpa [addrs] using hnd.sublist this
  · intro a ha
    apply h.lt_brk a
    simp [addrs] at ha ⊢; tauto
  · intro j _; rfl
  · intro a _ hna
    have e1 : a ≠ c.1 := fun e => hna (by simp [addrs, e])
    have e2 : a ≠ d.1 := fun e => hna (by simp [addrs, e])
    simp [Function.update_noteq e1, Function.update_noteq e2]
  · simp
  · simp
  · simp

theorem EraseAfter_cell_last_owns {m : Mem α} {this : Nat} {c1 : List (Nat × α)} {c : Nat × α}
    {sz : Nat} (h : Owns m this (c1 ++ [c]) sz) :
    EraseAfter m this ⟨.cell c.1⟩ = .error .assertion := by
  obtain ⟨p, ho, hs⟩ := h.obj
  obtain ⟨r, h1, nx, hr, hc, h2⟩ := IsSeg.append.1 hs
  have : nx = .null := h2
  subst this
  exact EraseAfter_cell_last hc

theorem EraseAfter_head_nil_owns {m : Mem α} {this : Nat} {sz : Nat}
    (h : Owns m this [] sz) : EraseAfter m this ⟨.head this⟩ = .error .assertion := by
  obtain ⟨p, ho, hs⟩ := h.obj
  have : p = .null := hs
  subst this
  exact EraseAfter_head_nil ho

/-! ## Clear, destruction, swap, fresh objects -/

theorem Frame.refl (m : Mem α) (this : Nat) (A : List Nat) : Frame m m this A :=
  ⟨fun _ _ => rfl, fun _ _ _ => rfl, Nat.le_refl _, rfl⟩

theorem Frame.trans {m n k : Mem α} {this : Nat} {A B : List Nat}
    (h1 : Frame m n this A) (h2 : Frame n k this B)
    (hB : ∀ a, a ∈ B → a < m.brk → a ∈ A) : Frame m k this A := by
  refine ⟨fun j hj => (h2.objs j hj).trans (h1.objs j hj), ?_, Nat.le_trans h1.brk h2.brk,
    h2.nobj.trans h1.nobj⟩
  intro a ha hA
  rw [h2.heap a (Nat.lt_of_lt_of_le ha h1.brk) (fun hb => hA (hB a hb ha)), h1.heap a ha hA]

theorem Frame.mono {m n : Mem α} {this : Nat} {A B : List Nat}
    (h : Frame m n this A) (hAB : ∀ a, a ∈ A → a ∈ B) : Frame m n this B :=
  ⟨h.objs, fun a ha hb => h.heap a ha (fun hA => hb (hAB a hA)), h.brk, h.nobj⟩

theorem ClearLoop_succ {m : Mem α} {this : Nat} {a : Nat} {sz : Nat} {w : α} {nx : NodePtr}
    (fuel : Nat) (ho : m.objs this = some ⟨.cell a, sz⟩) (ha : m.heap a = some ⟨w, nx⟩) :
    ClearLoop (fuel + 1) m this = ClearLoop fuel
      { heap := Function.update m.heap a none, brk := m.brk,
        objs := Function.update m.objs this (some ⟨nx, sz⟩), nobj := m.nobj } this := by
  simp [ClearLoop, getObj, ho, nextOf, ha, deleteNode, setObj, bind, Except.bind]

theorem ClearLoop_null {m : Mem α} {this : Nat} {sz : Nat} (fuel : Nat)
    (ho : m.objs this = some ⟨.null, sz⟩) : ClearLoop (fuel + 1) m this = .ok m := by
  simp [ClearLoop, getObj, ho, bind, Except.bind, pure, Except.pure]

theorem ClearLoop_owns {cells : List (Nat × α)} :
    ∀ {m : Mem α} {this : Nat} {sz : Nat} {fuel : Nat}, Owns m this cells sz →
      cells.length < fuel →
      ∃ n, ClearLoop fuel m this = .ok n ∧ Owns n this [] sz ∧
        Frame m n this (addrs cells) ∧ n.brk = m.brk := by
  induction cells with
  | nil =>
    intro m this sz fuel h hf
    obtain ⟨p, ho, hs⟩ := h.obj
    have : p = .null := hs
    subst this
    cases fuel with
    | zero => omega
    | succ f => exact ⟨m, ClearLoop_null f ho, h, Frame.refl _ _ _, rfl⟩
  | cons c t ih =>
    intro m this sz fuel h hf
    obtain ⟨p, ho, nx, hp, hc, ht⟩ := h.obj
    subst hp
    cases fuel with
    | zero => omega
    | succ f =>
      have hnd := List.nodup_cons.1 h.nodup
      have hown : Owns
          { heap := Function.update m.heap c.1 none, brk := m.brk,
            objs := Function.update m.objs this (some ⟨nx, sz⟩), nobj := m.nobj } this t sz := by
        refine ⟨⟨nx, by simp, ?_⟩, hnd.2, fun a ha => h.lt_brk a (List.mem_cons_of_mem _ ha)⟩
        apply ht.frame
        intro a ha
        have : a ≠ c.1 := fun e => hnd.1 (e ▸ ha)
        simp [Function.update_noteq this]
      obtain ⟨n, hn, hon, hfr, hb⟩ := ih hown (by simpa using hf)
      refine ⟨n, by rw [ClearLoop_succ f ho hc]; exact hn, hon, ?_, hb⟩
      have hfr0 : Frame m
          { heap := Function.update m.heap c.1 none, brk := m.brk,
            objs := Function.update m.objs this (some ⟨nx, sz⟩), nobj := m.nobj } this
          (addrs (c :: t)) := by
        refine ⟨fun j hj => by simp [Function.update_noteq hj], ?_, Nat.le_refl _, rfl⟩
        intro a _ hna
        have : a ≠ c.1 := fun e => hna (by simp [addrs, e])
        simp [Function.update_noteq this]
      exact hfr0.trans hfr (fun a ha _ => List.mem_cons_of_mem _ ha)

theorem Clear_empty {m : Mem α} {this : Nat} {p : NodePtr}
    (ho : m.objs this = some ⟨p, 0⟩) : Clear m this = .ok m := by
  simp [Clear, IsEmpty, getObj, ho, bind, Except.bind, pure, Except.pure]

theorem Clear_owns {m : Mem α} {this : Nat} {cells : List (Nat × α)} {sz : Nat}
    (h : Owns m this cells sz) (hsz : sz = 0 → cells = []) :
    ∃ n, Clear m this = .ok n ∧ Owns n this [] 0 ∧ Frame m n this (addrs cells) ∧
      n.brk = m.brk := by
  obtain ⟨p, ho, hs⟩ := h.obj
  by_cases h0 : sz = 0
  · subst h0
    have := hsz rfl
    subst this
    exact ⟨m, Clear_empty ho, h, Frame.refl _ _ _, rfl⟩
  · obtain ⟨n, hn, hon, hfr, hb⟩ := ClearLoop_owns h (Nat.lt_succ_of_le h.length_le)
    obtain ⟨q, hq, hqs⟩ := hon.obj
    refine ⟨setObj n this ⟨q, 0⟩, ?_, ⟨⟨q, by simp [setObj], hqs⟩, hon.nodup, hon.lt_brk⟩,
      ⟨?_, ?_, ?_, ?_⟩, ?_⟩
    · simp [Clear, IsEmpty, getObj, ho, h0, hn, hq, bind, Except.bind, pure, Except.pure]
    · intro j hj; simp [setObj, Function.update_noteq hj, hfr.objs j hj]
    · intro a ha hna; simpa [setObj] using hfr.heap a ha hna
    · simpa [setObj] using hfr.brk
    · simpa [setObj] using hfr.nobj
    · simpa [setObj] using hb

theorem destroy_owns {m : Mem α} {this : Nat} {cells : List (Nat × α)} {sz : Nat}
    (h : Owns m this cells sz) :
    ∃ n, destroy m this = .ok n ∧ n.objs this = none ∧ Frame m n this (addrs cells) ∧
      n.brk = m.brk := by
  obtain ⟨p, ho, hs⟩ := h.obj
  by_cases h0 : sz = 0
  · subst h0
    refine ⟨{ m with objs := Function.update m.objs this none }, ?_, by simp, ⟨?_, ?_, ?_, ?_⟩,
      rfl⟩
    · simp [destroy, Clear_empty ho, bind, Except.bind, pure, Except.pure]
    · intro j hj; simp [Function.update_noteq hj]
    · intro a _ _; rfl
    · exact Nat.le_refl _
    · rfl
  · obtain ⟨n, hn, hon, hfr, hb⟩ := ClearLoop_owns h (Nat.lt_succ_of_le h.length_le)
    obtain ⟨q, hq, hqs⟩ := hon.obj
    refine ⟨{ n with objs := Function.update n.objs this none }, ?_, by simp,
      ⟨?_, ?_, ?_, ?_⟩, ?_⟩
    · simp [destroy, Clear, IsEmpty, getObj, ho, h0, hn, hq, setObj, bind, Except.bind, pure,
        Except.pure]
    · intro j hj; simp [Function.update_noteq hj, hfr.objs j hj]
    · intro a ha hna; simpa using hfr.heap a ha hna
    · simpa using hfr.brk
    · simpa using hfr.nobj
    · simpa using hb

theorem swap_eq {m : Mem α} {this other : Nat} {a b : SingleLinkedList}
    (ha : m.objs this = some a) (hb : m.objs other = some b) :
    swap m this other = .ok
      { m with objs := Function.update (Function.update m.objs this (some b)) other (some a) } := by
  by_cases hne : this = other
  · subst hne
    rw [ha] at hb
    cases hb
    simp [swap, getObj, ha, setObj, bind, Except.bind, pure, Except.pure]
  · have hne2 : other ≠ this := fun e => hne e.symm
    simp [swap, getObj, ha, hb, setObj, bind, Except.bind, pure, Except.pure,
      Function.update_noteq hne, Function.update_noteq hne2]
    funext j
    by_cases h1 : j = other
    · subst h1; simp
    · by_cases h2 : j = this
      · subst h2; simp [Function.update_noteq h1]
      · simp [Function.update_noteq h1, Function.update_noteq h2]

/-! ## The loop of Assign -/

theorem lastPtr_nil (tmp : Nat) : lastPtr tmp ([] : List (Nat × α)) = .head tmp := rfl

theorem lastPtr_concat (tmp : Nat) (l : List (Nat × α)) (c : Nat × α) :
    lastPtr tmp (l ++ [c]) = .cell c.1 := by
  simp [lastPtr]

theorem AssignLoop_stop {It : Type} {I : InputIt α It} {m : Mem α} {tmp : Nat} {np : NodePtr}
    {it to_ : It} (fuel : Nat) (hne : I.ne it to_ = false) :
    AssignLoop I (fuel + 1) m tmp np it to_ = .ok m := by
  simp [AssignLoop, hne, pure, Except.pure]

theorem AssignLoop_succ_head {It : Type} {I : InputIt α It} {m : Mem α} {tmp : Nat}
    {it to_ : It} {x : α} {sz : Nat} (fuel : Nat) (hne : I.ne it to_ = true)
    (hd : I.deref m it = .ok x) (ho : m.objs tmp = some ⟨.null, sz⟩) :
    AssignLoop I (fuel + 1) m tmp (.head tmp) it to_ =
      (I.incr
        { heap := Function.update m.heap m.brk (some ⟨x, .null⟩), brk := m.brk + 1,
          objs := Function.update m.objs tmp (some ⟨.cell m.brk, sz + 1⟩), nobj := m.nobj }
        it).bind
      (fun it1 => AssignLoop I fuel
        { heap := Function.update m.heap m.brk (some ⟨x, .null⟩), brk := m.brk + 1,
          objs := Function.update m.objs tmp (some ⟨.cell m.brk, sz + 1⟩), nobj := m.nobj }
        tmp (.cell m.brk) it1 to_) := by
  simp [AssignLoop, hne, hd, newNode, setNext, ho, setObj, getObj, nextOf, bind, Except.bind]

theorem AssignLoop_succ_cell {It : Type} {I : InputIt α It} {m : Mem α} {tmp : Nat}
    {it to_ : It} {x : α} {o : SingleLinkedList} {a : Nat} {w : α} (fuel : Nat)
    (hne : I.ne it to_ = true) (hd : I.deref m it = .ok x) (ho : m.objs tmp = some o)
    (ha : m.heap a = some ⟨w, .null⟩) (hab : a ≠ m.brk) :
    AssignLoop I (fuel + 1) m tmp (.cell a) it to_ =
      (I.incr
        { heap := Function.update (Function.update m.heap m.brk (some ⟨x, .null⟩)) a
            (some ⟨w, .cell m.brk⟩),
          brk := m.brk + 1,
          objs := Function.update m.objs tmp (some ⟨o.head_next, o.size_ + 1⟩),
          nobj := m.nobj }
        it).bind
      (fun it1 => AssignLoop I fuel
        { heap := Function.update (Function.update m.heap m.brk (some ⟨x, .null⟩)) a
            (some ⟨w, .cell m.brk⟩),
          brk := m.brk + 1,
          objs := Function.update m.objs tmp (some ⟨o.head_next, o.size_ + 1⟩),
          nobj := m.nobj }
        tmp (.cell m.brk) it1 to_) := by
  simp [AssignLoop, hne, hd, newNode, setNext, ho, ha, hab, Function.update_noteq hab, setObj,
    getObj, nextOf, bind, Except.bind]

theorem owns_resize {n : Mem α} {this : Nat} {cells : List (Nat × α)} {s : Nat} {q : NodePtr}
    (h : Owns n this cells s) (hq : n.objs this = some ⟨q, s⟩) (s1 : Nat) :
    Owns { n with objs := Function.update n.objs this (some ⟨q, s1⟩) } this cells s1 := by
  obtain ⟨p, hp, hs⟩ := h.obj
  rw [hq] at hp
  have e : q = p := by injection hp with h1; exact congrArg SingleLinkedList.head_next h1
  subst e
  exact ⟨⟨q, by simp, hs⟩, h.nodup, h.lt_brk⟩

theorem frame_resize {m n : Mem α} {this : Nat} {A : List Nat} (hfr : Frame m n this A)
    (x : Option SingleLinkedList) :
    Frame m { n with objs := Function.update n.objs this x } this A :=
  ⟨fun j hj => by simp [Function.update_noteq hj, hfr.objs j hj], hfr.heap, hfr.brk, hfr.nobj⟩

/-- One iteration of the loop appends a fresh cell to the chain under construction. -/
theorem AssignLoop_step {It : Type} {I : InputIt α It} {m : Mem α} {tmp : Nat}
    {built : List (Nat × α)} {sz : Nat} {it to_ : It} {x : α} (fuel : Nat)
    (h : Owns m tmp built sz) (hne : I.ne it to_ = true) (hd : I.deref m it = .ok x) :
    ∃ n, AssignLoop I (fuel + 1) m tmp (lastPtr tmp built) it to_ =
        (I.incr n it).bind (fun it1 => AssignLoop I fuel n tmp (.cell m.brk) it1 to_) ∧
      Owns n tmp (built ++ [(m.brk, x)]) (sz + 1) ∧ Frame m n tmp (addrs built) ∧
      n.brk = m.brk + 1 := by
  rcases List.eq_nil_or_concat built with rfl | ⟨b1, c, hbc⟩
  · obtain ⟨p, ho, hs⟩ := h.obj
    have hp : p = .null := hs
    subst hp
    obtain ⟨n, hn, -, hown, hfr, hb⟩ := InsertAfter_head_owns x h
    rw [InsertAfter_eq_head x ho] at hn
    cases hn
    have hown2 := owns_resize hown (q := .cell m.brk) (by simp) (sz + 1)
    have hfr2 := frame_resize hfr (some ⟨.cell m.brk, sz + 1⟩)
    simp only [Function.update_idem] at hown2 hfr2
    exact ⟨_, AssignLoop_succ_head fuel hne hd ho, hown2, hfr2, rfl⟩
  · rw [List.concat_eq_append] at hbc
    subst hbc
    obtain ⟨p, ho, hs⟩ := h.obj
    obtain ⟨r, h1, nx, hr, hc, h2⟩ := IsSeg.append.1 hs
    have hnx : nx = .null := h2
    subst hnx
    have hlt : c.1 < m.brk := h.lt_brk _ (by simp [addrs])
    obtain ⟨n, hn, hown, hfr, hb⟩ := InsertAfter_cell_owns x h
    rw [InsertAfter_eq_cell x ho hc (Nat.ne_of_lt hlt)] at hn
    cases hn
    have hown2 := owns_resize hown (q := p) (by simp) (sz + 1)
    have hfr2 := frame_resize hfr (some ⟨p, sz + 1⟩)
    simp only [Function.update_idem] at hown2 hfr2
    rw [lastPtr_concat]
    refine ⟨_, AssignLoop_succ_cell fuel hne hd ho hc (Nat.ne_of_lt hlt), ?_, hfr2, rfl⟩
    simpa using hown2

theorem AssignLoop_owns {It : Type} {I : InputIt α It} {to_ : It} {B0 : Nat}
    {R : Mem α → It → List α → Prop} (hI : ItSpec I to_ B0 R) (tmp : Nat) {xs : List α} :
    ∀ {m : Mem α} {built : List (Nat × α)} {sz : Nat} {it : It} {fuel : Nat},
      Owns m tmp built sz → (∀ a ∈ addrs built, B0 ≤ a) → B0 ≤ m.brk → R m it xs →
      xs.length < fuel →
      ∃ n news, AssignLoop I fuel m tmp (lastPtr tmp built) it to_ = .ok n ∧
        Owns n tmp (built ++ news) (sz + xs.length) ∧ vals news = xs ∧
        Frame m n tmp (addrs built) ∧ n.brk = m.brk + xs.length ∧
        (∀ a ∈ addrs news, m.brk ≤ a) := by
  induction xs with
  | nil =>
    intro m built sz it fuel h _ _ hR hf
    cases fuel with
    | zero => omega
    | succ f =>
      exact ⟨m, [], AssignLoop_stop f (hI.nil m it hR), by simpa using h, rfl,
        Frame.refl _ _ _, rfl, by simp⟩
  | cons x xs ih =>
    intro m built sz it fuel h hB0 hbrk hR hf
    cases fuel with
    | zero => omega
    | succ f =>
      obtain ⟨hne, hd, -⟩ := hI.cons m it x xs hR
      obtain ⟨n, hn, hown, hfr, hb⟩ := AssignLoop_step f h hne hd
      have hstab : ∀ a, a < B0 → n.heap a = m.heap a := fun a ha =>
        hfr.heap a (Nat.lt_of_lt_of_le ha hbrk) (fun hm => Nat.lt_irrefl _
          (Nat.lt_of_lt_of_le ha (hB0 a hm)))
      obtain ⟨-, -, it1, hinc, hR1⟩ := hI.cons n it x xs (hI.stable m n it _ hstab hR)
      have hB1 : ∀ a ∈ addrs (built ++ [(m.brk, x)]), B0 ≤ a := by
        intro a ha
        simp [addrs] at ha
        rcases ha with ⟨b, hb1⟩ | rfl
        · exact hB0 a (by simp [addrs]; exact ⟨b, hb1⟩)
        · exact hbrk
      have hl : lastPtr tmp (built ++ [(m.brk, x)]) = .cell m.brk := lastPtr_concat _ _ _
      obtain ⟨k, news, hk, hownk, hvals, hfrk, hbk, hnews⟩ :=
        ih hown hB1 (by omega) hR1 (by simpa using hf)
      rw [hl] at hk
      refine ⟨k, (m.brk, x) :: news, ?_, ?_, by simp [vals, ← hvals], ?_, ?_, ?_⟩
      · rw [hn, hinc]; exact hk
      · have e : built ++ (m.brk, x) :: news = (built ++ [(m.brk, x)]) ++ news := by simp
        have e2 : sz + (x :: xs).length = sz + 1 + xs.length := by simp; omega
        rw [e, e2]; exact hownk
      · refine hfr.trans hfrk ?_
        intro a ha hlt
        simp [addrs] at ha
        rcases ha with ⟨b, hb1⟩ | rfl
        · simp [addrs]; exact ⟨b, hb1⟩
        · omega
      · rw [hbk, hb]; simp; omega
      · intro a ha
        simp [addrs] at ha
        rcases ha with rfl | ⟨b, hb1⟩
        · exact Nat.le_refl _
        · have := hnews a (by simp [addrs]; exact ⟨b, hb1⟩)
          omega

/-! ## Assign and the constructors -/

theorem Owns.transport {m n : Mem α} {this : Nat} {cells : List (Nat × α)} {sz : Nat}
    (h : Owns m this cells sz) (ho : n.objs this = m.objs this)
    (hh : ∀ a ∈ addrs cells, n.heap a = m.heap a) (hb : m.brk ≤ n.brk) :
    Owns n this cells sz := by
  obtain ⟨p, hp, hs⟩ := h.obj
  exact ⟨⟨p, by rw [ho, hp], hs.frame hh⟩, h.nodup,
    fun a ha => Nat.lt_of_lt_of_le (h.lt_brk a ha) hb⟩

theorem Owns.retarget {m n : Mem α} {i j : Nat} {cells : List (Nat × α)} {sz : Nat}
    (h : Owns m i cells sz) (ho : n.objs j = m.objs i)
    (hh : ∀ a ∈ addrs cells, n.heap a = m.heap a) (hb : m.brk ≤ n.brk) :
    Owns n j cells sz := by
  obtain ⟨p, hp, hs⟩ := h.obj
  exact ⟨⟨p, by rw [ho, hp], hs.frame hh⟩, h.nodup,
    fun a ha => Nat.lt_of_lt_of_le (h.lt_brk a ha) hb⟩

theorem newObj_owns (m : Mem α) : Owns (newObj m).1 m.nobj [] 0 :=
  ⟨⟨.null, by simp [newObj], rfl⟩, List.nodup_nil, fun _ ha => by simp [addrs] at ha⟩

theorem Assign_owns {It : Type} {I : InputIt α It} {to_ : It} {R : Mem α → It → List α → Prop}
    {m : Mem α} {this : Nat} {cells : List (Nat × α)} {sz : Nat} (it : It) (xs : List α)
    (fuel : Nat) (hI : ItSpec I to_ m.brk R) (h : Owns m this cells sz) (hthis : this ≠ m.nobj)
    (hR : R m it xs) (hf : xs.length < fuel) :
    ∃ n news, Assign I fuel m this it to_ = .ok n ∧ Owns n this news xs.length ∧
      vals news = xs ∧ (∀ a ∈ addrs news, m.brk ≤ a) ∧ n.objs m.nobj = none ∧
      (∀ j, j ≠ this → j ≠ m.nobj → n.objs j = m.objs j) ∧
      (∀ a, a < m.brk → a ∉ addrs cells → n.heap a = m.heap a) ∧
      n.brk = m.brk + xs.length ∧ n.nobj = m.nobj + 1 := by
  have hR0 : R (newObj m).1 it xs := hI.stable m _ it xs (fun _ _ => rfl) hR
  obtain ⟨n1, news, hn1, hown1, hvals, hfr1, hb1, hnews⟩ :=
    AssignLoop_owns hI m.nobj (newObj_owns m) (by simp [addrs])
      (Nat.le_refl _) hR0 hf
  rw [lastPtr_nil] at hn1
  simp only [List.nil_append, Nat.zero_add] at hown1
  have hbrk1 : m.brk ≤ n1.brk := by rw [hb1]; exact Nat.le_add_right _ _
  have hthis1 : n1.objs this = m.objs this := by
    rw [hfr1.objs this hthis]; simp [newObj, Function.update_noteq hthis]
  have hownt : Owns n1 this cells sz :=
    h.transport hthis1 (fun a ha => hfr1.heap a (h.lt_brk a ha) (by simp)) hbrk1
  obtain ⟨p, hp, -⟩ := hownt.obj
  obtain ⟨q, hq, -⟩ := hown1.obj
  have hsw := swap_eq hp hq
  -- the state after the swap
  have hswapped : Owns
      { n1 with objs := Function.update (Function.update n1.objs this
          (some ⟨q, xs.length⟩)) m.nobj (some ⟨p, sz⟩) } m.nobj cells sz :=
    hownt.retarget (by simp [hp]) (fun _ _ => rfl) (Nat.le_refl _)
  obtain ⟨n3, hn3, hdead, hfr3, hb3⟩ := destroy_owns hswapped
  have hdisj : ∀ a ∈ addrs news, a ∉ addrs cells := fun a ha hc =>
    Nat.lt_irrefl _ (Nat.lt_of_lt_of_le (h.lt_brk a hc) (hnews a ha))
  refine ⟨n3, news, ?_, ?_, hvals, hnews, hdead, ?_, ?_, ?_, ?_⟩
  · simp only [Assign, bind, Except.bind]
    have e : (newObj m).2 = m.nobj := rfl
    rw [e, hn1]
    simp only []
    rw [hsw]
    simp only []
    exact hn3
  · refine hown1.retarget ?_ ?_ hfr3.brk
    · rw [hfr3.objs this hthis]; simp [Function.update_noteq hthis, hq]
    · intro a ha
      exact hfr3.heap a (hown1.lt_brk a ha) (hdisj a ha)
  · intro j hj1 hj2
    rw [hfr3.objs j hj2]
    simp only [Function.update_noteq hj2, Function.update_noteq hj1]
    rw [hfr1.objs j hj2]
    simp [newObj, Function.update_noteq hj2]
  · intro a ha hna
    rw [hfr3.heap a (Nat.lt_of_lt_of_le ha hbrk1) hna]
    exact hfr1.heap a ha (by simp)
  · rw [hb3]; exact hb1
  · rw [hfr3.nobj]; simp only []; rw [hfr1.nobj]; rfl

theorem arrayIt_spec (values : List α) (B0 : Nat) :
    ItSpec (arrayIt values) values.length B0
      (fun _ i xs => i ≤ values.length ∧ values.drop i = xs) := by
  refine ⟨?_, ?_, fun _ _ _ _ _ h => h⟩
  · rintro m i ⟨hi, hd⟩
    have : values.length ≤ i := List.drop_eq_nil_iff.1 hd
    have : i = values.length := Nat.le_antisymm hi this
    simp [arrayIt, this]
  · rintro m i x xs ⟨hi, hd⟩
    have hlt : i < values.length := by
      rcases Nat.lt_or_ge i values.length with h | h
      · exact h
      · rw [List.drop_eq_nil_iff.2 h] at hd; cases hd
    rw [List.drop_eq_getElem_cons hlt] at hd
    injection hd with hx hxs
    refine ⟨by simp [arrayIt, Nat.ne_of_lt hlt], ?_, i + 1, rfl, hlt, hxs⟩
    simp [arrayIt, List.getElem?_eq_getElem hlt, hx]

theorem listIt_spec (B0 : Nat) :
    ItSpec (listIt : InputIt α BasicIterator) end_ B0
      (fun m it xs => ∃ cells, IsSeg m.heap it.node_ cells .null ∧ vals cells = xs ∧
        ∀ a ∈ addrs cells, a < B0) := by
  refine ⟨?_, ?_, ?_⟩
  · rintro m ⟨p⟩ ⟨cells, hs, hv, -⟩
    have : cells = [] := by simpa [vals] using hv
    subst this
    have : p = .null := hs
    subst this
    simp [listIt, end_]
  · rintro m ⟨p⟩ x xs ⟨cells, hs, hv, hlt⟩
    cases cells with
    | nil => simp [vals] at hv
    | cons c t =>
      obtain ⟨nx, hp, hc, ht⟩ := hs
      simp only at hp
      subst hp
      simp only [vals, List.map_cons, List.cons.injEq] at hv
      refine ⟨by simp [listIt, end_], ?_, ⟨nx⟩, ?_, t, ht, hv.2, ?_⟩
      · simp [listIt, BasicIterator.deref, valueOf, hc, hv.1]
      · simp [listIt, BasicIterator.incr, nextOf, hc]
      · intro a ha; exact hlt a (List.mem_cons_of_mem _ ha)
  · rintro m n it xs hh ⟨cells, hs, hv, hlt⟩
    exact ⟨cells, hs.frame (fun a ha => hh a (hlt a ha)), hv, hlt⟩

theorem ctorInit_owns (m : Mem α) (values : List α) :
    ∃ n news, ctorInit m values = .ok (n, m.nobj) ∧ Owns n m.nobj news values.length ∧
      vals news = values ∧ (∀ a ∈ addrs news, m.brk ≤ a) ∧
      (∀ j, m.nobj < j → n.objs j = none ∨ n.objs j = m.objs j) ∧
      n.objs (m.nobj + 1) = none ∧
      (∀ j, j < m.nobj → n.objs j = m.objs j) ∧
      (∀ a, a < m.brk → n.heap a = m.heap a) ∧
      n.brk = m.brk + values.length ∧ n.nobj = m.nobj + 2 := by
  obtain ⟨n, news, hn, hown, hvals, hnews, hdead, hobjs, hheap, hb, hno⟩ :=
    Assign_owns 0 values (values.length + 1) (arrayIt_spec values (newObj m).1.brk)
      (newObj_owns m) (by simp [newObj]) ⟨Nat.zero_le _, rfl⟩ (Nat.lt_succ_self _)
  refine ⟨n, news, ?_, hown, hvals, hnews, ?_, hdead, ?_, ?_, hb, hno⟩
  · simp only [ctorInit, bind, Except.bind]
    have e : (newObj m).2 = m.nobj := rfl
    rw [e, hn]; rfl
  · intro j hj
    by_cases h1 : j = m.nobj + 1
    · left; rw [h1]; exact hdead
    · right
      rw [hobjs j (Nat.ne_of_gt hj) h1]
      simp [newObj, Function.update_noteq (Nat.ne_of_gt hj)]
  · intro j hj
    have h1 : j ≠ m.nobj := Nat.ne_of_lt hj
    rw [hobjs j h1 (by simp [newObj]; omega)]
    simp [newObj, Function.update_noteq h1]
  · intro a ha
    exact hheap a ha (by simp [addrs])

/-! ## The representation invariant -/

theorem Frame.effect {m n : Mem α} {this : Nat} {A : List Nat} (h : Frame m n this A) :
    Effect m n this A :=
  ⟨fun j hj => Or.inl (h.objs j hj), h.heap, h.brk, Nat.le_of_eq h.nobj.symm⟩

theorem Rep.lt_brk {m : Mem α} {own : Nat → List (Nat × α)} (hr : Rep m own) (j : Nat) :
    ∀ a ∈ addrs (own j), a < m.brk := by
  intro a ha
  cases ho : m.objs j with
  | none => rw [hr.dead j ho] at ha; simp [addrs] at ha
  | some o => exact (hr.owns j o ho).lt_brk a ha

theorem Rep.update {m n : Mem α} {own : Nat → List (Nat × α)} {this : Nat}
    {cells : List (Nat × α)} (hr : Rep m own) (he : Effect m n this (addrs (own this)))
    (hthis : this < n.nobj)
    (hnew : ∀ a ∈ addrs cells, a ∈ addrs (own this) ∨ m.brk ≤ a)
    (hafter : (n.objs this = none ∧ cells = []) ∨ ∃ sz, Owns n this cells sz) :
    Rep n (Function.update own this cells) := by
  have hother : ∀ j, j ≠ this → ∀ a ∈ addrs cells, a ∉ addrs (own j) := by
    intro j hj a ha hm
    rcases hnew a ha with h1 | h1
    · exact hr.disj this j (fun e => hj e.symm) a h1 hm
    · exact Nat.lt_irrefl _ (Nat.lt_of_lt_of_le (hr.lt_brk j a hm) h1)
  refine ⟨?_, ?_, ?_, ?_⟩
  · intro i o hi
    by_cases hit : i = this
    · subst hit
      rcases hafter with ⟨hn, -⟩ | ⟨sz, hown⟩
      · rw [hn] at hi; cases hi
      · obtain ⟨p, hp, -⟩ := hown.obj
        rw [hp] at hi
        cases hi
        simpa using hown
    · rw [Function.update_noteq hit]
      rcases he.objs i hit with h1 | ⟨-, h1⟩
      · rw [h1] at hi
        exact (hr.owns i o hi).transport h1
          (fun a ha => he.heap a (hr.lt_brk i a ha) (hr.disj i this hit a ha)) he.brk
      · rw [h1] at hi; cases hi
  · intro i hi
    by_cases hit : i = this
    · subst hit
      rcases hafter with ⟨-, hc⟩ | ⟨sz, hown⟩
      · simpa using hc
      · obtain ⟨p, hp, -⟩ := hown.obj
        rw [hp] at hi; cases hi
    · rw [Function.update_noteq hit]
      rcases he.objs i hit with h1 | ⟨h0, -⟩
      · rw [h1] at hi; exact hr.dead i hi
      · exact hr.dead i (hr.lt_nobj i h0)
  · intro i j hij a ha
    by_cases hit : i = this
    · subst hit
      have hj : j ≠ i := fun e => hij e.symm
      rw [Function.update_same] at ha
      rw [Function.update_noteq hj]
      exact hother j hj a ha
    · rw [Function.update_noteq hit] at ha
      by_cases hjt : j = this
      · subst hjt
        rw [Function.update_same]
        exact fun hm => hother i hit a hm ha
      · rw [Function.update_noteq hjt]
        exact hr.disj i j hij a ha
  · intro i hi
    have hit : i ≠ this := fun e => Nat.lt_irrefl _ (Nat.lt_of_lt_of_le (e ▸ hthis) hi)
    rcases he.objs i hit with h1 | ⟨-, h1⟩
    · rw [h1]; exact hr.lt_nobj i (Nat.le_trans he.nobj hi)
    · exact h1

theorem Rep.live_lt {m : Mem α} {own : Nat → List (Nat × α)} (hr : Rep m own) {i : Nat}
    {o : SingleLinkedList} (hi : m.objs i = some o) : i < m.nobj := by
  rcases Nat.lt_or_ge i m.nobj with h | h
  · exact h
  · rw [hr.lt_nobj i h] at hi; cases hi

theorem Rep.own_fresh {m : Mem α} {own : Nat → List (Nat × α)} (hr : Rep m own) {i : Nat}
    (hi : m.nobj ≤ i) : own i = [] :=
  hr.dead i (hr.lt_nobj i hi)

theorem rep_init : Rep (Mem.init : Mem α) (fun _ => []) :=
  ⟨fun _ _ h => by simp [Mem.init] at h, fun _ _ => rfl, fun _ _ _ _ ha => by simp [addrs] at ha, fun _ _ => rfl⟩

theorem rep_newObj {m : Mem α} {own : Nat → List (Nat × α)} (hr : Rep m own) :
    Rep (newObj m).1 own := by
  have e : own = Function.update own m.nobj [] := by
    rw [← hr.own_fresh (Nat.le_refl _)]; simp
  rw [e]
  refine hr.update ⟨?_, ?_, ?_, ?_⟩ ?_ ?_ ?_
  · intro j hj; left; simp [newObj, Function.update_noteq hj]
  · intro a _ _; rfl
  · exact Nat.le_refl _
  · simp [newObj]
  · simp [newObj]
  · intro a ha; simp [addrs] at ha
  · exact Or.inr ⟨0, newObj_owns m⟩

theorem rep_swap {m n : Mem α} {own : Nat → List (Nat × α)} {this other : Nat}
    (hr : Rep m own) (hn : swap m this other = .ok n) :
    Rep n (Function.update (Function.update own this (own other)) other (own this)) := by
  cases ha : m.objs this with
  | none => simp [swap, getObj, ha, bind, Except.bind] at hn
  | some a =>
    cases hb : m.objs other with
    | none => simp [swap, getObj, ha, hb, bind, Except.bind] at hn
    | some b =>
      rw [swap_eq ha hb] at hn
      cases hn
      -- the table after the swap, object by object
      have key : ∀ i, ∃ k, Function.update (Function.update own this (own other)) other
            (own this) i = own k ∧
          Function.update (Function.update m.objs this (some b)) other (some a) i = m.objs k ∧
          ((k = i ∧ i ≠ this ∧ i ≠ other) ∨ (k = this ∧ i = other) ∨
            (k = other ∧ i = this)) := by
        intro i
        by_cases h1 : i = other
        · subst h1; exact ⟨this, by simp, by simp [ha], Or.inr (Or.inl ⟨rfl, rfl⟩)⟩
        · by_cases h2 : i = this
          · subst h2
            exact ⟨other, by simp [Function.update_noteq h1],
              by simp [Function.update_noteq h1, hb], Or.inr (Or.inr ⟨rfl, rfl⟩)⟩
          · exact ⟨i, by simp [Function.update_noteq h1, Function.update_noteq h2],
              by simp [Function.update_noteq h1, Function.update_noteq h2],
              Or.inl ⟨rfl, h2, h1⟩⟩
      refine ⟨?_, ?_, ?_, ?_⟩
      · intro i o hi
        obtain ⟨k, e1, e2, -⟩ := key i
        rw [e1]
        simp only at hi
        rw [e2] at hi
        exact (hr.owns k o hi).retarget (by simp only; rw [e2]) (fun _ _ => rfl) (Nat.le_refl _)
      · intro i hi
        obtain ⟨k, e1, e2, -⟩ := key i
        rw [e1]
        simp only at hi
        rw [e2] at hi
        exact hr.dead k hi
      · intro i j hij x hx
        obtain ⟨k, e1, -, hk⟩ := key i
        obtain ⟨l, f1, -, hl⟩ := key j
        rw [e1] at hx
        rw [f1]
        refine hr.disj k l ?_ x hx
        omega
      · intro i hi
        obtain ⟨k, -, e2, hk⟩ := key i
        simp only at hi ⊢
        rw [e2]
        have h1 := hr.live_lt ha
        have h2 := hr.live_lt hb
        exact hr.lt_nobj _ (by omega)

/-! ## Positions -/

theorem advance_seg {m : Mem α} :
    ∀ (k : Nat) {cells : List (Nat × α)} {p : NodePtr}, IsSeg m.heap p cells .null →
      advance m k ⟨p⟩ =
        if k ≤ cells.length then .ok ⟨headPtr (cells.drop k)⟩ else .error .assertion := by
  intro k
  induction k with
  | zero =>
    intro cells p hs
    simp [advance, hs.headPtr_eq]
  | succ k ih =>
    intro cells p hs
    cases cells with
    | nil =>
      have : p = .null := hs
      subst this
      simp [advance, BasicIterator.incr]
    | cons c t =>
      obtain ⟨nx, hp, hc, ht⟩ := hs
      subst hp
      simp [advance, BasicIterator.incr, nextOf, hc, ih ht]

theorem advance_before_begin {m : Mem α} {this : Nat} {cells : List (Nat × α)} {sz : Nat}
    (h : Owns m this cells sz) (k : Nat) :
    advance m (k + 1) (before_begin this) =
      if k ≤ cells.length then .ok ⟨headPtr (cells.drop k)⟩ else .error .assertion := by
  obtain ⟨p, ho, hs⟩ := h.obj
  rw [← advance_seg k hs]
  simp [advance, before_begin, BasicIterator.incr, nextOf, ho]

theorem headPtr_ne_null {cells : List (Nat × α)} (h : headPtr cells ≠ .null) :
    ∃ c t, cells = c :: t ∧ headPtr cells = .cell c.1 := by
  cases cells with
  | nil => exact absurd rfl h
  | cons c t => exact ⟨c, t, rfl, rfl⟩

/-- A position of a list is its sentinel or one of the cells of its chain. -/
theorem IsPos.cases {m : Mem α} {this : Nat} {cells : List (Nat × α)} {sz : Nat}
    {pos : BasicIterator} (h : Owns m this cells sz) (hp : IsPos m this pos) :
    pos = ⟨.head this⟩ ∨ ∃ c1 c c2, cells = c1 ++ c :: c2 ∧ pos = ⟨.cell c.1⟩ := by
  obtain ⟨hne, k, hk⟩ := hp
  cases k with
  | zero =>
    left
    simp [advance, before_begin] at hk
    exact hk.symm
  | succ k =>
    right
    rw [advance_before_begin h] at hk
    split at hk
    · cases hk
      have hnn : headPtr (cells.drop k) ≠ .null := fun e => hne (by simp [end_, e])
      obtain ⟨c, t, hct, hh⟩ := headPtr_ne_null hnn
      refine ⟨cells.take k, c, t, ?_, by rw [hh]⟩
      rw [← hct, List.take_append_drop]
    · cases hk

/-! ## Every public operation preserves the representation invariant -/

theorem rep_of_frame {m n : Mem α} {own : Nat → List (Nat × α)} {this : Nat}
    {o : SingleLinkedList} {cells : List (Nat × α)} {sz : Nat} {A : List Nat}
    (hr : Rep m own) (ho : m.objs this = some o) (hfr : Frame m n this A)
    (hA : ∀ a, a ∈ A → a ∈ addrs (own this)) (hown : Owns n this cells sz)
    (hnew : ∀ a ∈ addrs cells, a ∈ addrs (own this) ∨ m.brk ≤ a) :
    Rep n (Function.update own this cells) :=
  hr.update (hfr.mono hA).effect (by rw [hfr.nobj]; exact hr.live_lt ho) hnew
    (Or.inr ⟨sz, hown⟩)

theorem rep_PushFront {m n : Mem α} {own : Nat → List (Nat × α)} {this : Nat} {v : α}
    (hr : Rep m own) (hn : PushFront m this v = .ok n) : Inv n := by
  cases ho : m.objs this with
  | none => simp [PushFront, getObj, ho, bind, Except.bind] at hn
  | some o =>
    obtain ⟨k, hk, hown, hfr, -⟩ := PushFront_owns v (hr.owns this o ho)
    rw [hk] at hn
    cases hn
    refine ⟨_, rep_of_frame hr ho hfr (by simp) hown ?_⟩
    intro a ha
    rcases List.mem_cons.1 ha with rfl | h1
    · exact Or.inr (Nat.le_refl _)
    · exact Or.inl h1

theorem rep_PopFront {m n : Mem α} {own : Nat → List (Nat × α)} {this : Nat}
    (hr : Rep m own) (hn : PopFront m this = .ok n) : Inv n := by
  cases ho : m.objs this with
  | none => simp [PopFront, IsEmpty, getObj, ho, bind, Except.bind] at hn
  | some o =>
    obtain ⟨p, sz⟩ := o
    by_cases hsz : sz = 0
    · subst hsz
      rw [PopFront_empty ho] at hn
      cases hn
      exact ⟨own, hr⟩
    · have hown := hr.owns this _ ho
      cases hc : own this with
      | nil =>
        rw [hc] at hown
        obtain ⟨q, hq, hs⟩ := hown.obj
        have : q = .null := hs
        subst this
        rw [PopFront_null hq hsz] at hn
        cases hn
      | cons c t =>
        rw [hc] at hown
        obtain ⟨k, hk, hownk, hfr, -⟩ := PopFront_owns hown hsz
        rw [hk] at hn
        cases hn
        refine ⟨_, rep_of_frame hr ho hfr ?_ hownk ?_⟩
        · intro a ha; rw [hc]; simp at ha; simp [addrs, ha]
        · intro a ha; left; rw [hc]; exact List.mem_cons_of_mem _ ha

theorem rep_InsertAfter {m n : Mem α} {own : Nat → List (Nat × α)} {this : Nat}
    {pos : BasicIterator} {v : α} {r : BasicIterator} (hr : Rep m own)
    (hpos : IsPos m this pos) (hn : InsertAfter m this pos v = .ok (n, r)) : Inv n := by
  cases ho : m.objs this with
  | none =>
    obtain ⟨-, k, hk⟩ := hpos
    cases k with
    | zero =>
      simp [advance, before_begin] at hk
      subst hk
      simp [InsertAfter, nextOf, ho, bind, Except.bind, pure, Except.pure] at hn
    | succ k =>
      simp [advance, before_begin, BasicIterator.incr, nextOf, ho] at hk
  | some o =>
    have hown := hr.owns this o ho
    rcases hpos.cases hown with rfl | ⟨c1, c, c2, hc, rfl⟩
    · obtain ⟨k, hk, -, hownk, hfr, -⟩ := InsertAfter_head_owns v hown
      rw [hk] at hn
      cases hn
      refine ⟨_, rep_of_frame hr ho hfr (by simp) hownk ?_⟩
      intro a ha
      rcases List.mem_cons.1 ha with rfl | h1
      · exact Or.inr (Nat.le_refl _)
      · exact Or.inl h1
    · rw [hc] at hown
      obtain ⟨k, hk, hownk, hfr, -⟩ := InsertAfter_cell_owns v hown
      rw [hk] at hn
      cases hn
      refine ⟨_, rep_of_frame hr ho hfr (by rw [hc]; exact fun _ h => h) hownk ?_⟩
      intro a ha
      rw [hc]
      simp [addrs] at ha ⊢
      rcases ha with h1 | h1 | h1 | h1
      · exact Or.inl (Or.inl h1)
      · exact Or.inl (Or.inr (Or.inl h1))
      · exact Or.inr (Nat.le_of_eq h1.symm)
      · exact Or.inl (Or.inr (Or.inr h1))

theorem rep_EraseAfter {m n : Mem α} {own : Nat → List (Nat × α)} {this : Nat}
    {pos : BasicIterator} {r : BasicIterator} (hr : Rep m own)
    (hpos : IsPos m this pos) (hn : EraseAfter m this pos = .ok (n, r)) : Inv n := by
  cases ho : m.objs this with
  | none =>
    obtain ⟨-, k, hk⟩ := hpos
    cases k with
    | zero =>
      simp [advance, before_begin] at hk
      subst hk
      simp [EraseAfter, nextOf, ho, bind, Except.bind, pure, Except.pure] at hn
    | succ k =>
      simp [advance, before_begin, BasicIterator.incr, nextOf, ho] at hk
  | some o =>
    have hown := hr.owns this o ho
    have hsz : o.size_ ≠ 0 := EraseAfter_ok_size ho hn
    rcases hpos.cases hown with rfl | ⟨c1, c, c2, hc, rfl⟩
    · cases hc : own this with
      | nil =>
        rw [hc] at hown
        rw [EraseAfter_head_nil_owns hown] at hn
        cases hn
      | cons d c2 =>
        rw [hc] at hown
        obtain ⟨k, hk, hownk, hfr, -⟩ := EraseAfter_head_owns hown hsz
        rw [hk] at hn
        cases hn
        refine ⟨_, rep_of_frame hr ho hfr ?_ hownk ?_⟩
        · intro a ha; rw [hc]; simp at ha; simp [addrs, ha]
        · intro a ha; left; rw [hc]; exact List.mem_cons_of_mem _ ha
    · cases c2 with
      | nil =>
        rw [hc] at hown
        rw [EraseAfter_cell_last_owns hown] at hn
        cases hn
      | cons d c2 =>
        rw [hc] at hown
        obtain ⟨k, hk, hownk, hfr, -⟩ := EraseAfter_cell_owns hown hsz
        rw [hk] at hn
        cases hn
        refine ⟨_, rep_of_frame hr ho hfr (by rw [hc]; exact fun _ h => h) hownk ?_⟩
        intro a ha
        left
        rw [hc]
        simp [addrs] at ha ⊢
        tauto

theorem rep_Clear {m n : Mem α} {own : Nat → List (Nat × α)} {this : Nat}
    (hr : Rep m own) (hn : Clear m this = .ok n) : Inv n := by
  cases ho : m.objs this with
  | none => simp [Clear, IsEmpty, getObj, ho, bind, Except.bind] at hn
  | some o =>
    obtain ⟨p, sz⟩ := o
    by_cases hsz : sz = 0
    · subst hsz
      rw [Clear_empty ho] at hn
      cases hn
      exact ⟨own, hr⟩
    · obtain ⟨k, hk, hownk, hfr, -⟩ := Clear_owns (hr.owns this _ ho)
        (fun h0 => absurd h0 hsz)
      rw [hk] at hn
      cases hn
      exact ⟨_, rep_of_frame hr ho hfr (fun _ h => h) hownk
        (fun a ha => by simp [addrs] at ha)⟩

theorem rep_destroy {m n : Mem α} {own : Nat → List (Nat × α)} {this : Nat}
    (hr : Rep m own) (hn : destroy m this = .ok n) : Rep n (Function.update own this []) := by
  cases ho : m.objs this with
  | none => simp [destroy, Clear, IsEmpty, getObj, ho, bind, Except.bind] at hn
  | some o =>
    obtain ⟨k, hk, hdead, hfr, -⟩ := destroy_owns (hr.owns this o ho)
    rw [hk] at hn
    cases hn
    exact hr.update hfr.effect (by rw [hfr.nobj]; exact hr.live_lt ho)
      (fun a ha => by simp [addrs] at ha) (Or.inl ⟨hdead, rfl⟩)

theorem rep_Assign {It : Type} {I : InputIt α It} {to_ : It} {R : Mem α → It → List α → Prop}
    {m : Mem α} {own : Nat → List (Nat × α)} {this : Nat} {o : SingleLinkedList} (it : It)
    (xs : List α) (fuel : Nat) (hr : Rep m own) (ho : m.objs this = some o)
    (hI : ItSpec I to_ m.brk R) (hR : R m it xs) (hf : xs.length < fuel) :
    ∃ n news, Assign I fuel m this it to_ = .ok n ∧ Rep n (Function.update own this news) ∧
      vals news = xs ∧ Owns n this news xs.length ∧ n.nobj = m.nobj + 1 := by
  have hlt := hr.live_lt ho
  obtain ⟨n, news, hn, hown, hvals, hnews, hdead, hobjs, hheap, hb, hno⟩ :=
    Assign_owns it xs fuel hI (hr.owns this o ho) (Nat.ne_of_lt hlt) hR hf
  refine ⟨n, news, hn, ?_, hvals, hown, hno⟩
  refine hr.update ⟨?_, hheap, by omega, by omega⟩ (by omega) (fun a ha => Or.inr (hnews a ha))
    (Or.inr ⟨_, hown⟩)
  intro j hj
  by_cases h1 : j = m.nobj
  · right; subst h1; exact ⟨Nat.le_refl _, hdead⟩
  · left; exact hobjs j hj h1

theorem rep_ctorInit {m n : Mem α} {own : Nat → List (Nat × α)} {values : List α} {i : Nat}
    (hr : Rep m own) (hn : ctorInit m values = .ok (n, i)) : Inv n := by
  have ho : (newObj m).1.objs m.nobj = some ⟨.null, 0⟩ := by simp [newObj]
  obtain ⟨k, news, hk, hrep, -⟩ :=
    rep_Assign 0 values (values.length + 1) (rep_newObj hr) ho (arrayIt_spec values _)
      ⟨Nat.zero_le _, rfl⟩ (Nat.lt_succ_self _)
  simp only [ctorInit, bind, Except.bind] at hn
  have e : (newObj m).2 = m.nobj := rfl
  rw [e, hk] at hn
  cases hn
  exact ⟨_, hrep⟩

theorem ctorCopy_rep {m : Mem α} {own : Nat → List (Nat × α)} {other : Nat}
    {o : SingleLinkedList} (hr : Rep m own) (ho : (newObj m).1.objs other = some o) :
    ∃ n news, ctorCopy m other = .ok (n, m.nobj) ∧ Rep n (Function.update own m.nobj news) ∧
      vals news = vals (own other) ∧ Owns n m.nobj news (own other).length ∧
      n.nobj = m.nobj + 2 := by
  have hr0 := rep_newObj hr
  have hown := hr0.owns other o ho
  obtain ⟨p, hp, hs⟩ := hown.obj
  have hnew : (newObj m).1.objs m.nobj = some ⟨.null, 0⟩ := by simp [newObj]
  obtain ⟨n, news, hn, hrep, hvals, hownn, hno⟩ :=
    rep_Assign (⟨p⟩ : BasicIterator) (vals (own other)) ((newObj m).1.brk + 1) hr0 hnew
      (listIt_spec _) ⟨own other, hs, rfl, hown.lt_brk⟩
      (by simpa [vals] using Nat.lt_succ_of_le hown.length_le)
  refine ⟨n, news, ?_, hrep, hvals, by simpa [vals] using hownn, by rw [hno]; rfl⟩
  simp only [ctorCopy, begin, getObj, bind, Except.bind]
  have e : (newObj m).2 = m.nobj := rfl
  rw [hp]
  simp only []
  rw [e, hn]
  rfl

theorem rep_ctorCopy {m n : Mem α} {own : Nat → List (Nat × α)} {other : Nat} {i : Nat}
    (hr : Rep m own) (hn : ctorCopy m other = .ok (n, i)) : Inv n ∧ i = m.nobj := by
  cases ho : (newObj m).1.objs other with
  | none => simp [ctorCopy, begin, getObj, ho, bind, Except.bind] at hn
  | some o =>
    obtain ⟨k, news, hk, hrep, -⟩ := ctorCopy_rep hr ho
    rw [hk] at hn
    cases hn
    exact ⟨⟨_, hrep⟩, rfl⟩

theorem rep_copyAssign {m n : Mem α} {own : Nat → List (Nat × α)} {this rhs : Nat}
    (hr : Rep m own) (hn : copyAssign m this rhs = .ok n) : Inv n := by
  by_cases h : this = rhs
  · simp [copyAssign, h, pure, Except.pure] at hn
    subst hn
    exact ⟨own, hr⟩
  · simp only [copyAssign, h, ne_eq, not_false_eq_true, if_true, bind, Except.bind] at hn
    cases hc : ctorCopy m rhs with
    | error e => rw [hc] at hn; cases hn
    | ok r =>
      obtain ⟨m1, rc⟩ := r
      rw [hc] at hn
      simp only [] at hn
      obtain ⟨⟨own1, hr1⟩, -⟩ := rep_ctorCopy hr hc
      cases hs : swap m1 this rc with
      | error e => rw [hs] at hn; cases hn
      | ok m2 =>
        rw [hs] at hn
        simp only [] at hn
        exact ⟨_, rep_destroy (rep_swap hr1 hs) hn⟩

/-- Every reachable store satisfies the representation invariant. -/
theorem Reachable.inv {m : Mem α} (h : Reachable m) : Inv m := by
  induction h with
  | init => exact ⟨_, rep_init⟩
  | @step m n op _ hpre hrun ih =>
    obtain ⟨own, hr⟩ := ih
    cases op with
    | ctorDefault =>
      simp only [Op.run, ctorDefault] at hrun
      cases hrun
      exact ⟨own, rep_newObj hr⟩
    | ctorInit values =>
      simp only [Op.run] at hrun
      cases hc : ctorInit m values with
      | error e => rw [hc] at hrun; cases hrun
      | ok r =>
        obtain ⟨k, i⟩ := r
        rw [hc] at hrun
        have e : k = n := by simpa [Except.map] using hrun
        subst e
        exact rep_ctorInit hr hc
    | ctorCopy other =>
      simp only [Op.run] at hrun
      cases hc : ctorCopy m other with
      | error e => rw [hc] at hrun; cases hrun
      | ok r =>
        obtain ⟨k, i⟩ := r
        rw [hc] at hrun
        have e : k = n := by simpa [Except.map] using hrun
        subst e
        exact (rep_ctorCopy hr hc).1
    | copyAssign this rhs => exact rep_copyAssign hr hrun
    | swap this other => exact ⟨_, rep_swap hr hrun⟩
    | PushFront this v => exact rep_PushFront hr hrun
    | PopFront this => exact rep_PopFront hr hrun
    | InsertAfter this pos v =>
      simp only [Op.run] at hrun
      cases hc : InsertAfter m this pos v with
      | error e => rw [hc] at hrun; cases hrun
      | ok r =>
        obtain ⟨k, i⟩ := r
        rw [hc] at hrun
        have e : k = n := by simpa [Except.map] using hrun
        subst e
        exact rep_InsertAfter hr hpre hc
    | EraseAfter this pos =>
      simp only [Op.run] at hrun
      cases hc : EraseAfter m this pos with
      | error e => rw [hc] at hrun; cases hrun
      | ok r =>
        obtain ⟨k, i⟩ := r
        rw [hc] at hrun
        have e : k = n := by simpa [Except.map] using hrun
        subst e
        exact rep_EraseAfter hr hpre hc
    | Clear this => exact rep_Clear hr hrun
    | destroy this => exact ⟨_, rep_destroy hr hrun⟩

/-! ## Reading a list back, and the lexicographic comparison -/

theorem seg_of_collect {m : Mem α} :
    ∀ (fuel : Nat) (p : NodePtr) (xs : List α), collect fuel m ⟨p⟩ end_ = .ok xs →
      ∃ cells, IsSeg m.heap p cells .null ∧ vals cells = xs ∧ cells.length < fuel := by
  intro fuel
  induction fuel with
  | zero => intro p xs h; simp [collect] at h
  | succ f ih =>
    intro p xs h
    cases p with
    | null =>
      simp [collect, end_, pure, Except.pure] at h
      exact ⟨[], rfl, by simp [vals, h], by simp⟩
    | head i =>
      simp [collect, end_, BasicIterator.deref, valueOf, bind, Except.bind] at h
    | cell a =>
      cases ha : m.heap a with
      | none =>
        simp [collect, end_, BasicIterator.deref, valueOf, ha, bind, Except.bind] at h
      | some nd =>
        cases hr : collect f m ⟨nd.next_node⟩ end_ with
        | error e =>
          simp [collect, end_, BasicIterator.deref, BasicIterator.incr, valueOf, nextOf, ha,
            bind, Except.bind] at h
          simp [end_] at hr
          rw [hr] at h
          simp at h
        | ok rest =>
          obtain ⟨cells, hs, hv, hl⟩ := ih _ _ hr
          simp [collect, end_, BasicIterator.deref, BasicIterator.incr, valueOf, nextOf, ha,
            bind, Except.bind, pure, Except.pure] at h
          simp [end_] at hr
          rw [hr] at h
          simp at h
          refine ⟨(a, nd.value) :: cells, ⟨nd.next_node, rfl, ?_, hs⟩, ?_, by simpa using hl⟩
          · simp [ha]
          · simp [vals, ← h]; exact hv

theorem seg_of_toList {m : Mem α} {this : Nat} {xs : List α} (h : toList m this = .ok xs) :
    ∃ o cells, m.objs this = some o ∧ IsSeg m.heap o.head_next cells .null ∧
      vals cells = xs ∧ cells.length ≤ m.brk := by
  cases ho : m.objs this with
  | none => simp [toList, begin, getObj, ho, bind, Except.bind] at h
  | some o =>
    simp only [toList, begin, getObj, ho, bind, Except.bind] at h
    obtain ⟨cells, hs, hv, hl⟩ := seg_of_collect _ _ _ h
    exact ⟨o, cells, rfl, hs, hv, Nat.le_of_lt_succ hl⟩

theorem lex_seg [LT α] [DecidableRel (fun a b : α => a < b)] {m : Mem α}
    {c1 : List (Nat × α)} :
    ∀ {c2 : List (Nat × α)} {p1 p2 : NodePtr} {fuel : Nat}, IsSeg m.heap p1 c1 .null →
      IsSeg m.heap p2 c2 .null → c1.length < fuel →
      std_lexicographical_compare fuel m ⟨p1⟩ end_ ⟨p2⟩ end_ =
        .ok (lexLt (vals c1) (vals c2)) := by
  induction c1 with
  | nil =>
    intro c2 p1 p2 fuel h1 h2 hf
    have e1 : p1 = .null := h1
    subst e1
    cases fuel with
    | zero => omega
    | succ f =>
      cases c2 with
      | nil =>
        have e2 : p2 = .null := h2
        subst e2
        simp [std_lexicographical_compare, end_, lexLt, vals, pure, Except.pure]
      | cons d t =>
        obtain ⟨nx, hp, -, -⟩ := h2
        subst hp
        simp [std_lexicographical_compare, end_, lexLt, vals, pure, Except.pure]
  | cons c t ih =>
    intro c2 p1 p2 fuel h1 h2 hf
    obtain ⟨nx1, hp1, hc1, ht1⟩ := h1
    subst hp1
    cases fuel with
    | zero => omega
    | succ f =>
      cases c2 with
      | nil =>
        have e2 : p2 = .null := h2
        subst e2
        simp [std_lexicographical_compare, end_, lexLt, vals, pure, Except.pure]
      | cons d u =>
        obtain ⟨nx2, hp2, hc2, hu⟩ := h2
        subst hp2
        have := ih ht1 hu (by simpa using hf)
        simp only [end_] at this
        by_cases hlt : c.2 < d.2
        · simp [std_lexicographical_compare, end_, lexLt, vals, BasicIterator.deref, valueOf,
            hc1, hc2, hlt, bind, Except.bind, pure, Except.pure]
        · by_cases hgt : d.2 < c.2
          · simp [std_lexicographical_compare, end_, lexLt, vals, BasicIterator.deref, valueOf,
              hc1, hc2, hlt, hgt, bind, Except.bind, pure, Except.pure]
          · simp [std_lexicographical_compare, end_, lexLt, vals, BasicIterator.deref, valueOf,
              BasicIterator.incr, nextOf, hc1, hc2, hlt, hgt, bind, Except.bind, this]

theorem operatorLt_of_toList [LT α] [DecidableRel (fun a b : α => a < b)] {m : Mem α}
    {a b : Nat} {xs ys : List α} (ha : toList m a = .ok xs) (hb : toList m b = .ok ys) :
    operatorLt m a b = .ok (lexLt xs ys) := by
  obtain ⟨o1, c1, ho1, hs1, hv1, hl1⟩ := seg_of_toList ha
  obtain ⟨o2, c2, ho2, hs2, hv2, -⟩ := seg_of_toList hb
  simp only [operatorLt, begin, getObj, ho1, ho2, bind, Except.bind]
  rw [lex_seg hs1 hs2 (Nat.lt_succ_of_le hl1), hv1, hv2]

theorem lexLt_iff [LinearOrder α] :
    ∀ (xs ys : List α), lexLt xs ys = true ↔
      (xs <+: ys ∧ xs ≠ ys) ∨
        ∃ i, ∃ (h1 : i < xs.length) (h2 : i < ys.length),
          xs.take i = ys.take i ∧ xs[i] < ys[i] := by
  intro xs
  induction xs with
  | nil =>
    intro ys
    cases ys with
    | nil => simp [lexLt]
    | cons y ys => simp [lexLt]
  | cons x xs ih =>
    intro ys
    cases ys with
    | nil => simp [lexLt]
    | cons y ys =>
      rcases lt_trichotomy x y with hlt | heq | hgt
      · simp only [lexLt, hlt, if_true, true_iff]
        exact Or.inr ⟨0, by simp, by simp, rfl, by simpa using hlt⟩
      · subst heq
        simp only [lexLt, lt_irrefl, if_false, ih ys]
        constructor
        · rintro (⟨hp, hne⟩ | ⟨i, h1, h2, ht, hl⟩)
          · exact Or.inl ⟨by simpa [List.cons_prefix_cons] using hp, by simpa using hne⟩
          · exact Or.inr ⟨i + 1, by simpa using h1, by simpa using h2, by simpa using ht,
              by simpa using hl⟩
        · rintro (⟨hp, hne⟩ | ⟨i, h1, h2, ht, hl⟩)
          · exact Or.inl ⟨by simpa [List.cons_prefix_cons] using hp, by simpa using hne⟩
          · cases i with
            | zero => simp at hl
            | succ j =>
              exact Or.inr ⟨j, by simpa using h1, by simpa using h2, by simpa using ht,
                by simpa using hl⟩
      · have hn : ¬ x < y := not_lt_of_gt hgt
        simp only [lexLt, hn, hgt, if_false, if_true]
        constructor
        · intro h; cases h
        · rintro (⟨hp, -⟩ | ⟨i, h1, h2, ht, hl⟩)
          · have : x = y := by
              have := List.cons_prefix_cons.1 hp
              exact this.1
            exact absurd hgt (by rw [this]; exact lt_irrefl _)
          · cases i with
            | zero => exact absurd (by simpa using hl) hn
            | succ j =>
              have : x = y := by
                simp only [List.take_succ_cons, List.cons.injEq] at ht
                exact ht.1
              exact absurd hgt (by rw [this]; exact lt_irrefl _)

/-! ## Concrete stores -/

theorem reachable_runOps :
    ∀ (ops : List (Op α)) (m n : Mem α), Reachable m → PreAll m ops → runOps m ops = .ok n →
      Reachable n := by
  intro ops
  induction ops with
  | nil =>
    intro m n hm _ h
    simp only [runOps] at h
    cases h
    exact hm
  | cons op rest ih =>
    intro m n hm hpre h
    obtain ⟨hp, hrest⟩ := hpre
    cases hr : op.run m with
    | error e => simp [runOps, hr] at h
    | ok k =>
      simp only [runOps, hr] at h
      rw [hr] at hrest
      exact ih k n (Reachable.step op hm hp hr) hrest h

theorem memOf_ok {r : Except Fault (Mem α)} (h : r.toBool = true) : r = .ok (memOf r) := by
  cases r with
  | error e => cases h
  | ok m => rfl

theorem reachable_memErased : Reachable memErased :=
  reachable_runOps [.ctorDefault, .PushFront 0 1, .EraseAfter 0 (before_begin 0)]
    Mem.init memErased Reachable.init ⟨trivial, trivial, ⟨by decide, 0, rfl⟩, trivial⟩ (memOf_ok rfl)

theorem reachable_memStale : Reachable memStale :=
  reachable_runOps
    [.ctorDefault, .PushFront 0 1, .PushFront 0 2, .EraseAfter 0 (before_begin 0)]
    Mem.init memStale Reachable.init
    ⟨trivial, trivial, trivial, ⟨by decide, 0, rfl⟩, trivial⟩ (memOf_ok rfl)

theorem reachable_mem123 : Reachable mem123 :=
  reachable_runOps [.ctorInit [1, 2, 3]] Mem.init mem123 Reachable.init ⟨trivial, trivial⟩ (memOf_ok rfl)

/-! ## Driving the counter to `SIZE_MAX` -/

theorem incSize_of_lt {s : Nat} (h : s < SIZE_MAX) : incSize s = s + 1 := by
  unfold incSize
  exact Nat.mod_eq_of_lt (by omega)

theorem incSize_max : incSize SIZE_MAX = 0 := by
  unfold incSize
  exact Nat.mod_self _

theorem memFull_objs : memFull.objs 0 = some ⟨.cell 0, SIZE_MAX⟩ := rfl

theorem memFull_toList : toList memFull 0 = .ok [1] := rfl

theorem memFull_GetSize : GetSize memFull 0 = .ok SIZE_MAX := rfl

theorem memWrapped_objs : memWrapped.objs 0 = some ⟨.cell SIZE_MAX, 0⟩ := rfl

theorem memWrapped_toList : toList memWrapped 0 = .ok [7, 1] := rfl

theorem memWrapped_nodeCount : nodeCount memWrapped 0 = .ok 2 := rfl

/-! ## Lists in reachable stores -/

theorem Reachable.owns_of_toList {m : Mem α} {this : Nat} {xs : List α} (hm : Reachable m)
    (hx : toList m this = .ok xs) :
    ∃ cells sz, Owns m this cells sz ∧ vals cells = xs := by
  obtain ⟨own, hr⟩ := hm.inv
  obtain ⟨o, -, ho, -⟩ := seg_of_toList hx
  have hown := hr.owns this o ho
  have := toList_of_owns hown
  rw [hx] at this
  cases this
  exact ⟨own this, o.size_, hown, rfl⟩

theorem Reachable.owns_of_GetSize {m : Mem α} {this : Nat} {sz : Nat} (hm : Reachable m)
    (hs : GetSize m this = .ok sz) :
    ∃ cells, Owns m this cells sz := by
  obtain ⟨own, hr⟩ := hm.inv
  cases ho : m.objs this with
  | none => simp [GetSize, getObj, ho] at hs
  | some o =>
    have e : o.size_ = sz := by simpa [GetSize, getObj, ho] using hs
    subst e
    exact ⟨own this, hr.owns this o ho⟩

theorem begin_of_owns_nil {m : Mem α} {this : Nat} {sz : Nat} (h : Owns m this [] sz) :
    begin m this = .ok end_ := by
  obtain ⟨p, ho, hs⟩ := h.obj
  have : p = .null := hs
  subst this
  simp [begin, getObj, ho, end_]

theorem IsEmpty_of_owns {m : Mem α} {this : Nat} {cells : List (Nat × α)} {sz : Nat}
    (h : Owns m this cells sz) : IsEmpty m this = .ok (sz == 0) := by
  obtain ⟨p, ho, -⟩ := h.obj
  simp [IsEmpty, getObj, ho]

/-- Below `SIZE_MAX`, `PushFront(v)` followed by `PopFront()` restores the
elements and the size of a list of a reachable store. -/
theorem PushFront_PopFront_below_max {m : Mem α} {this : Nat} {xs : List α} {sz : Nat}
    (v : α) (hm : Reachable m) (hx : toList m this = .ok xs)
    (hs : GetSize m this = .ok sz) (hlt : sz < SIZE_MAX) :
    ∃ m1 m2, PushFront m this v = .ok m1 ∧ PopFront m1 this = .ok m2 ∧
      toList m2 this = .ok xs ∧ GetSize m2 this = .ok sz := by
  obtain ⟨cells, sz1, hown, hvals⟩ := hm.owns_of_toList hx
  have e : sz1 = sz := by
    have := GetSize_of_owns hown
    rw [hs] at this
    injection this with h
    exact h.symm
  subst e
  obtain ⟨m1, h1, hown1, -⟩ := PushFront_owns v hown
  rw [incSize_of_lt hlt] at hown1
  obtain ⟨m2, h2, hown2, -⟩ := PopFront_owns hown1 (Nat.succ_ne_zero _)
  exact ⟨m1, m2, h1, h2, by rw [toList_of_owns hown2, hvals], GetSize_of_owns hown2⟩

/-! ## The claims -/

/-- C1: for every finite sequence `values`, in every store, the
initializer-list constructor (which builds through `Assign`) returns a list
whose `GetSize()` is the length of `values`, whose chain has that many nodes
and whose iteration from `begin()` to `end()` yields exactly `values` in
order; the list built from the empty sequence has `begin() == end()`, is
empty and has size 0. -/
theorem C1_ctorInit_size_and_elements (m : Mem α) (values : List α) :
    (∃ n this, ctorInit m values = .ok (n, this) ∧ GetSize n this = .ok values.length ∧
      nodeCount n this = .ok values.length ∧ toList n this = .ok values) ∧
    (∃ n this, ctorInit m [] = .ok (n, this) ∧ GetSize n this = .ok 0 ∧
      IsEmpty n this = .ok true ∧ begin n this = .ok end_ ∧ toList n this = .ok []) := by
  constructor
  · obtain ⟨n, news, hn, hown, hvals, -⟩ := ctorInit_owns m values
    refine ⟨n, m.nobj, hn, GetSize_of_owns hown, ?_, ?_⟩
    · rw [nodeCount_of_owns hown, ← hvals]; simp [vals]
    · rw [toList_of_owns hown, hvals]
  · obtain ⟨n, news, hn, hown, hvals, -⟩ := ctorInit_owns m ([] : List α)
    have : news = [] := by simpa [vals] using hvals
    subst this
    exact ⟨n, m.nobj, hn, GetSize_of_owns hown, by rw [IsEmpty_of_owns hown]; rfl,
      begin_of_owns_nil hown, toList_of_owns hown⟩

/-- C2: the size invariant fails in a reachable state.  After
`PushFront(1); EraseAfter(before_begin())` on a default-constructed list the
sentinel's link is null and no element node is reachable, yet `GetSize()` is
1 and `IsEmpty()` is false: `EraseAfter` does not decrement `size_`. -/
theorem C2_size_invariant_broken_by_EraseAfter :
    Reachable memErased ∧ nextOf memErased (.head 0) = .ok .null ∧
      nodeCount memErased 0 = .ok 0 ∧ GetSize memErased 0 = .ok 1 ∧
      IsEmpty memErased 0 = .ok false :=
  ⟨reachable_memErased, rfl, rfl, rfl, rfl⟩

/-- C3: `operator==` does not compare lengths.  For `a = {1}` and
`b = {1, 2}` it returns true, and for `a = {1, 2}` and `b = {1}` it
dereferences the end iterator of `b` (the assertion of `operator*` fails). -/
theorem C3_operatorEq_ignores_length :
    toList memShortLong 0 = .ok [1] ∧ toList memShortLong 2 = .ok [1, 2] ∧
      operatorEq memShortLong 0 2 = .ok true ∧
      operatorEq memShortLong 2 0 = .error .assertion :=
  ⟨rfl, rfl, rfl, rfl⟩

/-- C4, as stated, fails for a strict order that is not total.  The order of
`Keyed` compares keys only: it is irreflexive and transitive, and `(1,0)` and
`(1,1)` are different elements neither of which is less than the other.  On
the lists `{(1,0), (2,0)}` and `{(1,1), (3,0)}`, `operator<` returns true
(`std::lexicographical_compare` steps over the equivalent first elements and
finds `(2,0) < (3,0)`), yet the first list is not a proper prefix of the
second and the sequences first differ at index 0, where `(1,0) < (1,1)` is
false: no index has equal elements before it and a smaller element at it. -/
theorem C4_operatorLt_key_order_counterexample :
    (∀ a : Keyed, ¬ a < a) ∧ (∀ a b c : Keyed, a < b → b < c → a < c) ∧
    ((⟨1, 0⟩ : Keyed) ≠ ⟨1, 1⟩ ∧ ¬ (⟨1, 0⟩ : Keyed) < ⟨1, 1⟩ ∧ ¬ (⟨1, 1⟩ : Keyed) < ⟨1, 0⟩) ∧
    toList memKeyed 0 = .ok [⟨1, 0⟩, ⟨2, 0⟩] ∧ toList memKeyed 2 = .ok [⟨1, 1⟩, ⟨3, 0⟩] ∧
    operatorLt memKeyed 0 2 = .ok true ∧
    ¬ ((([⟨1, 0⟩, ⟨2, 0⟩] : List Keyed) <+: [⟨1, 1⟩, ⟨3, 0⟩] ∧
          ([⟨1, 0⟩, ⟨2, 0⟩] : List Keyed) ≠ [⟨1, 1⟩, ⟨3, 0⟩]) ∨
        ∃ i, ∃ (h1 : i < ([⟨1, 0⟩, ⟨2, 0⟩] : List Keyed).length)
            (h2 : i < ([⟨1, 1⟩, ⟨3, 0⟩] : List Keyed).length),
          ([⟨1, 0⟩, ⟨2, 0⟩] : List Keyed).take i = ([⟨1, 1⟩, ⟨3, 0⟩] : List Keyed).take i ∧
            ([⟨1, 0⟩, ⟨2, 0⟩] : List Keyed)[i] < ([⟨1, 1⟩, ⟨3, 0⟩] : List Keyed)[i]) := by
  refine ⟨fun a => Nat.lt_irrefl a.key, fun a b c h1 h2 => Nat.lt_trans h1 h2,
    ⟨by decide, by decide, by decide⟩, rfl, rfl, rfl, ?_⟩
  rintro (⟨hp, -⟩ | ⟨i, h1, h2, ht, hlt⟩)
  · exact absurd hp (by decide)
  · match i, h1, h2, ht, hlt with
    | 0, _, _, _, hlt => exact Nat.lt_irrefl 1 hlt
    | 1, _, _, ht, _ => exact absurd ht (by decide)

/-- C4, amended: over a linearly ordered element type (a strict order in
which different elements are always comparable), for lists `a` and `b` with
element sequences `xs` and `ys`, `operator<` returns a result, and it returns
true exactly when `xs` is a proper prefix of `ys` or, at the first index where
the sequences differ, the element of `xs` is less than the element of `ys`. -/
theorem C4_operatorLt_lexicographic [LinearOrder α] (m : Mem α) (a b : Nat) (xs ys : List α)
    (ha : toList m a = .ok xs) (hb : toList m b = .ok ys) :
    (∃ r, operatorLt m a b = .ok r) ∧
    (operatorLt m a b = .ok true ↔
      (xs <+: ys ∧ xs ≠ ys) ∨
        ∃ i, ∃ (h1 : i < xs.length) (h2 : i < ys.length),
          xs.take i = ys.take i ∧ xs[i] < ys[i]) := by
  have h := operatorLt_of_toList ha hb
  refine ⟨⟨_, h⟩, ?_⟩
  rw [h, ← lexLt_iff]
  constructor
  · intro e; injection e
  · intro e; rw [e]

/-- Witness of C4 on `{1,2,3}` and `{1,2,4}` (they first differ at index 2,
where 3 < 4), together with the other comparisons the claim lists:
`{1,2} < {1,2,3}`, not `{1,2,3} < {1,2,3}`, and `{} < {1}`. -/
theorem C4_operatorLt_lexicographic_witness :
    (toList memFive 0 = .ok [1, 2, 3] ∧ toList memFive 2 = .ok [1, 2, 4] ∧
      toList memFive 4 = .ok [1, 2] ∧ toList memFive 6 = .ok [] ∧
      toList memFive 8 = .ok [1]) ∧
    operatorLt memFive 0 2 = .ok true ∧ operatorLt memFive 4 0 = .ok true ∧
    operatorLt memFive 0 0 = .ok false ∧ operatorLt memFive 6 8 = .ok true :=
  ⟨⟨rfl, rfl, rfl, rfl, rfl⟩,
    (C4_operatorLt_lexicographic memFive 0 2 [1, 2, 3] [1, 2, 4] rfl rfl).2.2
      (Or.inr ⟨2, by decide, by decide, rfl, by decide⟩),
    rfl, rfl, rfl⟩

/-- C5: the derived operators are not consistent with `operator==`.  For
`a = {1}` and `b = {1, 2}`, `a >= b` is false although `b < a || a == b` is
true (`operator==` returns true on a proper prefix); and `b <= a` is false
while `b < a || b == a` cannot be evaluated, because `b == a` fails the
assertion of `operator*`. -/
theorem C5_derived_operators_disagree_with_operatorEq :
    toList memShortLong 0 = .ok [1] ∧ toList memShortLong 2 = .ok [1, 2] ∧
      operatorGe memShortLong 0 2 = .ok false ∧ operatorLt memShortLong 2 0 = .ok false ∧
      operatorEq memShortLong 0 2 = .ok true ∧
      operatorLe memShortLong 2 0 = .ok false ∧ operatorLt memShortLong 2 0 = .ok false ∧
      operatorEq memShortLong 2 0 = .error .assertion :=
  ⟨rfl, rfl, rfl, rfl, rfl, rfl, rfl, rfl⟩

/-- C6: the concrete scenario.  Three `PushFront` calls give `[1,2,3]` with
size 3; `EraseAfter(before_begin())` then gives `[2,3]` but `GetSize()` stays
3 (the scenario expects 2); `InsertAfter(before_begin(), 9)` gives `[9,2,3]`
with `GetSize()` 4. -/
theorem C6_scenario_size_after_EraseAfter :
    observe (runOps (Mem.init : Mem Nat)
        [.ctorDefault, .PushFront 0 3, .PushFront 0 2, .PushFront 0 1]) 0 =
      .ok ([1, 2, 3], 3) ∧
    observe (runOps (Mem.init : Mem Nat)
        [.ctorDefault, .PushFront 0 3, .PushFront 0 2, .PushFront 0 1,
          .EraseAfter 0 (before_begin 0)]) 0 =
      .ok ([2, 3], 3) ∧
    observe (runOps (Mem.init : Mem Nat)
        [.ctorDefault, .PushFront 0 3, .PushFront 0 2, .PushFront 0 1,
          .EraseAfter 0 (before_begin 0), .InsertAfter 0 (before_begin 0) 9]) 0 =
      .ok ([9, 2, 3], 4) :=
  ⟨rfl, rfl, rfl⟩

/-- C7: `PopFront` on a reachable list without elements is not always a
no-op.  After `PushFront(1); EraseAfter(before_begin())` the list holds no
elements but `IsEmpty()` is false, so `PopFront()` skips its early return and
reads `next_node` through the null `head_.next_node`. -/
theorem C7_PopFront_null_dereference :
    Reachable memErased ∧ toList memErased 0 = .ok [] ∧
      nextOf memErased (.head 0) = .ok .null ∧ IsEmpty memErased 0 = .ok false ∧
      PopFront memErased 0 = .error .nullDeref :=
  ⟨reachable_memErased, rfl, rfl, rfl, rfl⟩

/-- C9 (as stated, refuted): on the list `{1, 2, 3}`,
`EraseAfter(InsertAfter(before_begin(), 9))` leaves `[9, 2, 3]` with
`GetSize()` 4, not the original `[1, 2, 3]` with size 3: the cursor returned
by `InsertAfter` refers to the new node, so `EraseAfter` removes the node
after it. -/
theorem C9_EraseAfter_InsertAfter_counterexample :
    toList mem123 0 = .ok [1, 2, 3] ∧ GetSize mem123 0 = .ok 3 ∧
      observe ((InsertAfter mem123 0 (before_begin 0) 9).bind
        fun r1 => (EraseAfter r1.1 0 r1.2).map Prod.fst) 0 = .ok ([9, 2, 3], 4) :=
  ⟨rfl, rfl, rfl⟩

/-- C9 (amended): for every list of a reachable store with elements `xs` and
`GetSize()` below `SIZE_MAX`, every position `pos` other than `end()` reached
from `before_begin()` by `i` increments, and every value `v`:
`InsertAfter(pos, v)` succeeds, and `EraseAfter` applied to the cursor it
returns removes the element that followed `pos` in the original list.  If
such an element exists (`i < |xs|`) the list then holds `xs` with the element
at index `i` replaced by `v`; if `pos` was the last position, `EraseAfter`
fails its assertion. -/
theorem C9_EraseAfter_InsertAfter_replaces_successor (m : Mem α) (this : Nat) (xs : List α)
    (sz i : Nat) (pos : BasicIterator) (v : α) (hm : Reachable m)
    (hx : toList m this = .ok xs) (hs : GetSize m this = .ok sz) (hlt : sz < SIZE_MAX)
    (hp : advance m i (before_begin this) = .ok pos) (hne : pos ≠ end_) :
    ∃ m1 it, InsertAfter m this pos v = .ok (m1, it) ∧
      (EraseAfter m1 this it).bind (fun r => toList r.1 this) =
        if i < xs.length then .ok (xs.take i ++ v :: xs.drop (i + 1))
        else .error .assertion := by
  obtain ⟨cells, sz1, hown, hvals⟩ := hm.owns_of_toList hx
  have e : sz1 = sz := by
    have := GetSize_of_owns hown
    rw [hs] at this
    injection this with h
    exact h.symm
  subst e
  subst hvals
  have hinc := incSize_of_lt hlt
  cases i with
  | zero =>
    have e : pos = ⟨.head this⟩ := by
      simp [advance, before_begin] at hp
      exact hp.symm
    subst e
    obtain ⟨m1, h1, -, hown1, -⟩ := InsertAfter_head_owns v hown
    rw [hinc] at hown1
    refine ⟨m1, _, h1, ?_⟩
    cases cells with
    | nil =>
      have hown1' : Owns m1 this ([] ++ [(m.brk, v)]) (sz1 + 1) := hown1
      have := EraseAfter_cell_last_owns hown1'
      simp only at this
      rw [this]
      simp [vals, Except.bind]
    | cons d c2 =>
      have hown1' : Owns m1 this ([] ++ (m.brk, v) :: d :: c2) (sz1 + 1) := hown1
      obtain ⟨m2, h2, hown2, -⟩ := EraseAfter_cell_owns hown1' (Nat.succ_ne_zero _)
      simp only at h2
      rw [h2]
      simp only [Except.bind]
      rw [toList_of_owns hown2]
      simp [vals]
  | succ k =>
    rw [advance_before_begin hown] at hp
    split at hp
    · rename_i hk
      cases hp
      have hnn : headPtr (cells.drop k) ≠ .null := fun e => hne (by simp [end_, e])
      obtain ⟨c, c2, hct, hh⟩ := headPtr_ne_null hnn
      have hsplit : cells = cells.take k ++ c :: c2 := by
        rw [← hct, List.take_append_drop]
      have hlen : (cells.take k).length = k := List.length_take_of_le hk
      rw [hh]
      generalize cells.take k = c1 at hsplit hlen
      subst hsplit
      obtain ⟨m1, h1, hown1, -⟩ := InsertAfter_cell_owns v hown
      rw [hinc] at hown1
      refine ⟨m1, _, h1, ?_⟩
      cases c2 with
      | nil =>
        have hown1' : Owns m1 this ((c1 ++ [c]) ++ [(m.brk, v)]) (sz1 + 1) := by
          simpa using hown1
        have := EraseAfter_cell_last_owns hown1'
        simp only at this
        rw [this]
        simp [vals, Except.bind, hlen]
      | cons d c2 =>
        have hown1' : Owns m1 this ((c1 ++ [c]) ++ (m.brk, v) :: d :: c2) (sz1 + 1) := by
          simpa using hown1
        obtain ⟨m2, h2, hown2, -⟩ := EraseAfter_cell_owns hown1' (Nat.succ_ne_zero _)
        simp only at h2
        rw [h2]
        simp only [Except.bind]
        rw [toList_of_owns hown2]
        have hl : (List.map Prod.snd c1).length = k := by simpa using hlen
        have e1 : k + 1 < (vals (c1 ++ c :: d :: c2)).length := by simp [vals]; omega
        rw [if_pos e1]
        congr 1
        have e2 : vals (c1 ++ c :: d :: c2) =
            (List.map Prod.snd c1 ++ [c.2]) ++ d.2 :: List.map Prod.snd c2 := by
          simp [vals]
        have hl2 : (List.map Prod.snd c1 ++ [c.2]).length = k + 1 := by simp [hl]
        rw [e2, List.take_left' hl2]
        have e3 : k + 1 + 1 = (List.map Prod.snd c1 ++ [c.2] ++ [d.2]).length := by
          simp [hl]
        have e4 : (List.map Prod.snd c1 ++ [c.2]) ++ d.2 :: List.map Prod.snd c2 =
            (List.map Prod.snd c1 ++ [c.2] ++ [d.2]) ++ List.map Prod.snd c2 := by simp
        rw [e4, e3, List.drop_left]
        simp [vals]
    · cases hp

/-- Witness of C9 (amended) on the list `{1, 2, 3}`, the position of its
first element and the value 9: the result is `[1, 9, 3]`. -/
theorem C9_EraseAfter_InsertAfter_replaces_successor_witness :
    Reachable mem123 ∧ toList mem123 0 = .ok [1, 2, 3] ∧ GetSize mem123 0 = .ok 3 ∧
      3 < SIZE_MAX ∧ advance mem123 1 (before_begin 0) = .ok ⟨.cell 0⟩ ∧
      (⟨.cell 0⟩ : BasicIterator) ≠ end_ ∧
      ∃ m1 it, InsertAfter mem123 0 ⟨.cell 0⟩ 9 = .ok (m1, it) ∧
        (EraseAfter m1 0 it).bind (fun r => toList r.1 0) =
          if 1 < ([1, 2, 3] : List Nat).length then
            .ok (([1, 2, 3] : List Nat).take 1 ++ 9 :: ([1, 2, 3] : List Nat).drop (1 + 1))
          else .error .assertion :=
  ⟨reachable_mem123, rfl, rfl, by decide, rfl, by decide,
    C9_EraseAfter_InsertAfter_replaces_successor mem123 0 [1, 2, 3] 3 1 ⟨.cell 0⟩ 9
      reachable_mem123 rfl rfl (by decide) rfl (by decide)⟩

/-- When the counter is not 0, or the chain is empty, `Clear()` on a list of a
reachable store leaves no element node and a counter of 0. -/
theorem Clear_empties_of_ne_zero {m : Mem α} {this : Nat} {sz : Nat} (hm : Reachable m)
    (hs : GetSize m this = .ok sz) (hz : sz ≠ 0 ∨ toList m this = .ok []) :
    ∃ n, Clear m this = .ok n ∧ begin n this = .ok end_ ∧ nodeCount n this = .ok 0 ∧
      toList n this = .ok [] ∧ IsEmpty n this = .ok true ∧ GetSize n this = .ok 0 := by
  obtain ⟨cells, hown⟩ := hm.owns_of_GetSize hs
  have hc : sz = 0 → cells = [] := by
    intro h0
    rcases hz with hz | hz
    · exact absurd h0 hz
    · have := toList_of_owns hown
      rw [hz] at this
      injection this with h
      simpa [vals] using h.symm
  obtain ⟨n, hn, hown1, -⟩ := Clear_owns hown hc
  exact ⟨n, hn, begin_of_owns_nil hown1, nodeCount_of_owns hown1, toList_of_owns hown1,
    by rw [IsEmpty_of_owns hown1]; rfl, GetSize_of_owns hown1⟩

theorem equal_seg [DecidableEq α] {m : Mem α} {c1 : List (Nat × α)} :
    ∀ {c2 : List (Nat × α)} {p1 p2 : NodePtr} {fuel : Nat}, IsSeg m.heap p1 c1 .null →
      IsSeg m.heap p2 c2 .null → c1.length < fuel →
      std_equal fuel m ⟨p1⟩ end_ ⟨p2⟩ = equalSpec (vals c1) (vals c2) := by
  induction c1 with
  | nil =>
    intro c2 p1 p2 fuel h1 _ hf
    have e1 : p1 = .null := h1
    subst e1
    cases fuel with
    | zero => omega
    | succ f => simp [std_equal, end_, equalSpec, vals, pure, Except.pure]
  | cons c t ih =>
    intro c2 p1 p2 fuel h1 h2 hf
    obtain ⟨nx1, hp1, hc1, ht1⟩ := h1
    subst hp1
    cases fuel with
    | zero => omega
    | succ f =>
      cases c2 with
      | nil =>
        have e2 : p2 = .null := h2
        subst e2
        simp [std_equal, end_, equalSpec, vals, BasicIterator.deref, valueOf, hc1, bind,
          Except.bind]
      | cons d u =>
        obtain ⟨nx2, hp2, hc2, hu⟩ := h2
        subst hp2
        have := ih ht1 hu (by simpa using hf)
        simp only [end_] at this
        by_cases heq : c.2 = d.2
        · simp [std_equal, end_, equalSpec, vals, BasicIterator.deref, valueOf,
            BasicIterator.incr, nextOf, hc1, hc2, heq, bind, Except.bind, this]
        · simp [std_equal, end_, equalSpec, vals, BasicIterator.deref, valueOf, hc1, hc2, heq,
            bind, Except.bind, pure, Except.pure]

theorem operatorEq_of_toList [DecidableEq α] {m : Mem α} {a b : Nat} {xs ys : List α}
    (ha : toList m a = .ok xs) (hb : toList m b = .ok ys) :
    operatorEq m a b = equalSpec xs ys := by
  obtain ⟨o1, c1, ho1, hs1, hv1, hl1⟩ := seg_of_toList ha
  obtain ⟨o2, c2, ho2, hs2, hv2, -⟩ := seg_of_toList hb
  simp only [operatorEq, begin, getObj, ho1, ho2, bind, Except.bind]
  rw [equal_seg hs1 hs2 (Nat.lt_succ_of_le hl1), hv1, hv2]

theorem equalSpec_self [DecidableEq α] (xs : List α) : equalSpec xs xs = .ok true := by
  induction xs with
  | nil => rfl
  | cons x xs ih => simp [equalSpec, ih]

theorem equalSpec_of_le [DecidableEq α] :
    ∀ (xs ys : List α), xs.length ≤ ys.length →
      equalSpec xs ys = .ok (decide (xs <+: ys)) := by
  intro xs
  induction xs with
  | nil => intro ys _; simp [equalSpec]
  | cons x xs ih =>
    intro ys hl
    cases ys with
    | nil => simp at hl
    | cons y ys =>
      by_cases heq : x = y
      · subst heq
        simp [equalSpec, ih ys (by simpa using hl), List.cons_prefix_cons]
      · simp [equalSpec, heq, List.cons_prefix_cons]

theorem equalSpec_of_gt [DecidableEq α] :
    ∀ (xs ys : List α), ys.length < xs.length →
      equalSpec xs ys = if ys <+: xs then .error .assertion else .ok false := by
  intro xs
  induction xs with
  | nil => intro ys hl; simp at hl
  | cons x xs ih =>
    intro ys hl
    cases ys with
    | nil => simp [equalSpec]
    | cons y ys =>
      by_cases heq : x = y
      · subst heq
        simp [equalSpec, ih ys (by simpa using hl), List.cons_prefix_cons]
      · have hne : ¬ y = x := fun e => heq e.symm
        simp [equalSpec, heq, hne, List.cons_prefix_cons]

/-! ## Successors of positions -/

theorem incr_head_owns {m : Mem α} {this : Nat} {cells : List (Nat × α)} {sz : Nat}
    (h : Owns m this cells sz) :
    BasicIterator.incr m ⟨.head this⟩ = .ok ⟨headPtr cells⟩ := by
  obtain ⟨p, ho, hs⟩ := h.obj
  simp [BasicIterator.incr, nextOf, ho, hs.headPtr_eq]

theorem incr_cell_owns {m : Mem α} {this : Nat} {c1 c2 : List (Nat × α)} {c : Nat × α}
    {sz : Nat} (h : Owns m this (c1 ++ c :: c2) sz) :
    BasicIterator.incr m ⟨.cell c.1⟩ = .ok ⟨headPtr c2⟩ := by
  obtain ⟨p, ho, hs⟩ := h.obj
  obtain ⟨r, -, nx, -, hc, h2⟩ := IsSeg.append.1 hs
  simp [BasicIterator.incr, nextOf, hc, h2.headPtr_eq]

theorem deref_cell_owns {m : Mem α} {this : Nat} {c1 c2 : List (Nat × α)} {c : Nat × α}
    {sz : Nat} (h : Owns m this (c1 ++ c :: c2) sz) :
    BasicIterator.deref m ⟨.cell c.1⟩ = .ok c.2 := by
  obtain ⟨p, ho, hs⟩ := h.obj
  obtain ⟨r, -, nx, -, hc, -⟩ := IsSeg.append.1 hs
  simp [BasicIterator.deref, valueOf, hc]

/-- A position reached by `i` increments from `before_begin()` is the sentinel
(`i = 0`) or the cell number `i - 1` of the chain. -/
theorem pos_split {m : Mem α} {this : Nat} {cells : List (Nat × α)} {sz : Nat} {i : Nat}
    {pos : BasicIterator} (h : Owns m this cells sz)
    (hp : advance m i (before_begin this) = .ok pos) (hne : pos ≠ end_) :
    (i = 0 ∧ pos = ⟨.head this⟩) ∨
      ∃ k c1 c c2, i = k + 1 ∧ cells = c1 ++ c :: c2 ∧ c1.length = k ∧ pos = ⟨.cell c.1⟩ := by
  cases i with
  | zero =>
    left
    simp [advance, before_begin] at hp
    exact ⟨rfl, hp.symm⟩
  | succ k =>
    right
    rw [advance_before_begin h] at hp
    split at hp
    · rename_i hk
      cases hp
      have hnn : headPtr (cells.drop k) ≠ .null := fun e => hne (by simp [end_, e])
      obtain ⟨c, c2, hct, hh⟩ := headPtr_ne_null hnn
      refine ⟨k, cells.take k, c, c2, rfl, ?_, List.length_take_of_le hk, by rw [hh]⟩
      rw [← hct, List.take_append_drop]
    · cases hp

/-! ## Lists by index -/

theorem take_succ_mid {β : Type} {l1 l2 : List β} {a : β} {k : Nat} (h : l1.length = k) :
    (l1 ++ a :: l2).take (k + 1) = l1 ++ [a] := by
  have e : l1 ++ a :: l2 = (l1 ++ [a]) ++ l2 := by simp
  rw [e, List.take_left']
  simp [h]

theorem drop_succ_mid {β : Type} {l1 l2 : List β} {a : β} {k : Nat} (h : l1.length = k) :
    (l1 ++ a :: l2).drop (k + 1) = l2 := by
  have e : l1 ++ a :: l2 = (l1 ++ [a]) ++ l2 := by simp
  rw [e, List.drop_left']
  simp [h]

theorem Reachable.owns_full {m : Mem α} {this : Nat} {xs : List α} {sz : Nat}
    (hm : Reachable m) (hx : toList m this = .ok xs) (hs : GetSize m this = .ok sz) :
    ∃ cells, Owns m this cells sz ∧ vals cells = xs := by
  obtain ⟨cells, sz1, hown, hvals⟩ := hm.owns_of_toList hx
  have e : sz1 = sz := by
    have := GetSize_of_owns hown
    rw [hs] at this
    injection this with h
    exact h.symm
  subst e
  exact ⟨cells, hown, hvals⟩

/-! ## Copies, and what a mutation of one list leaves alone -/

theorem toList_eq_of_rep {m : Mem α} {own : Nat → List (Nat × α)} {this : Nat} {xs : List α}
    (hr : Rep m own) (hx : toList m this = .ok xs) :
    ∃ o, m.objs this = some o ∧ vals (own this) = xs := by
  obtain ⟨o, -, ho, -⟩ := seg_of_toList hx
  have := toList_of_owns (hr.owns this o ho)
  rw [hx] at this
  injection this with h
  exact ⟨o, ho, h.symm⟩

theorem obs_of_rep {m : Mem α} {own : Nat → List (Nat × α)} {this : Nat}
    {o : SingleLinkedList} (hr : Rep m own) (ho : m.objs this = some o) :
    toList m this = .ok (vals (own this)) ∧ GetSize m this = .ok o.size_ :=
  ⟨toList_of_owns (hr.owns this o ho), GetSize_of_owns (hr.owns this o ho)⟩

/-- A step that only touches list `this`, its cells and fresh cells leaves the
elements and the size of every other list as they were. -/
theorem frame_keeps {m n : Mem α} {own : Nat → List (Nat × α)} {this j : Nat}
    (hr : Rep m own) (hj : j ≠ this) (hobj : n.objs j = m.objs j)
    (hheap : ∀ a, a < m.brk → a ∉ addrs (own this) → n.heap a = m.heap a)
    (hbrk : m.brk ≤ n.brk) :
    toList n j = toList m j ∧ GetSize n j = GetSize m j := by
  cases ho : m.objs j with
  | none =>
    rw [ho] at hobj
    simp [toList, begin, GetSize, getObj, ho, hobj, bind, Except.bind]
  | some o =>
    have hown := hr.owns j o ho
    have hown2 : Owns n j (own j) o.size_ :=
      hown.transport hobj
        (fun a ha => hheap a (hown.lt_brk a ha) (hr.disj j this hj a ha)) hbrk
    rw [toList_of_owns hown, toList_of_owns hown2, GetSize_of_owns hown,
      GetSize_of_owns hown2]
    exact ⟨rfl, rfl⟩

theorem Op.mutates_eq {op : Op α} {this : Nat} (h : op.mutates = some this) :
    (∃ v, op = .PushFront this v) ∨ op = .PopFront this ∨
      (∃ pos v, op = .InsertAfter this pos v) ∨ (∃ pos, op = .EraseAfter this pos) ∨
      op = .Clear this := by
  cases op <;> simp [Op.mutates] at h <;> subst h <;> simp

/-- A mutating member function applied to `this` within its precondition
touches only `this`, cells of its chain and fresh cells. -/
theorem mutation_frame {m n : Mem α} {own : Nat → List (Nat × α)} {op : Op α} {this : Nat}
    (hr : Rep m own) (hmut : op.mutates = some this) (hpre : op.pre m)
    (hrun : op.run m = .ok n) : Frame m n this (addrs (own this)) := by
  cases ho : m.objs this with
  | none =>
    exfalso
    rcases Op.mutates_eq hmut with ⟨v, rfl⟩ | rfl | ⟨pos, v, rfl⟩ | ⟨pos, rfl⟩ | rfl
    · simp [Op.run, PushFront, getObj, ho, bind, Except.bind] at hrun
    · simp [Op.run, PopFront, IsEmpty, getObj, ho, bind, Except.bind] at hrun
    · obtain ⟨-, k, hk⟩ := hpre
      cases k with
      | zero =>
        simp [advance, before_begin] at hk
        subst hk
        simp [Op.run, InsertAfter, nextOf, ho, bind, Except.bind, pure, Except.pure,
          Except.map] at hrun
      | succ k => simp [advance, before_begin, BasicIterator.incr, nextOf, ho] at hk
    · obtain ⟨-, k, hk⟩ := hpre
      cases k with
      | zero =>
        simp [advance, before_begin] at hk
        subst hk
        simp [Op.run, EraseAfter, nextOf, ho, bind, Except.bind, pure, Except.pure,
          Except.map] at hrun
      | succ k => simp [advance, before_begin, BasicIterator.incr, nextOf, ho] at hk
    · simp [Op.run, Clear, IsEmpty, getObj, ho, bind, Except.bind] at hrun
  | some o =>
    have hown := hr.owns this o ho
    rcases Op.mutates_eq hmut with ⟨v, rfl⟩ | rfl | ⟨pos, v, rfl⟩ | ⟨pos, rfl⟩ | rfl
    · obtain ⟨k, hk, -, hfr, -⟩ := PushFront_owns v hown
      simp only [Op.run] at hrun
      rw [hk] at hrun
      cases hrun
      exact hfr.mono (by simp)
    · simp only [Op.run] at hrun
      obtain ⟨p, sz⟩ := o
      by_cases hsz : sz = 0
      · subst hsz
        rw [PopFront_empty ho] at hrun
        cases hrun
        exact Frame.refl _ _ _
      · cases hc : own this with
        | nil =>
          rw [hc] at hown
          obtain ⟨q, hq, hs⟩ := hown.obj
          have : q = .null := hs
          subst this
          rw [PopFront_null hq hsz] at hrun
          cases hrun
        | cons c t =>
          rw [hc] at hown
          obtain ⟨k, hk, -, hfr, -⟩ := PopFront_owns hown hsz
          rw [hk] at hrun
          cases hrun
          exact hfr.mono (fun a ha => by simp at ha; simp [addrs, ha])
    · simp only [Op.run] at hrun
      have hpos : IsPos m this pos := hpre
      rcases hpos.cases hown with rfl | ⟨c1, c, c2, hc, rfl⟩
      · obtain ⟨k, hk, -, -, hfr, -⟩ := InsertAfter_head_owns v hown
        rw [hk] at hrun
        have e : k = n := by simpa [Except.map] using hrun
        subst e
        exact hfr.mono (by simp)
      · rw [hc] at hown
        obtain ⟨k, hk, -, hfr, -⟩ := InsertAfter_cell_owns v hown
        rw [hk] at hrun
        have e : k = n := by simpa [Except.map] using hrun
        subst e
        rw [hc]; exact hfr
    · simp only [Op.run] at hrun
      have hpos : IsPos m this pos := hpre
      have hsz : o.size_ ≠ 0 := by
        cases he : EraseAfter m this pos with
        | error e => rw [he] at hrun; simp [Except.map] at hrun
        | ok r => exact EraseAfter_ok_size ho he
      rcases hpos.cases hown with rfl | ⟨c1, c, c2, hc, rfl⟩
      · cases hc : own this with
        | nil =>
          rw [hc] at hown
          rw [EraseAfter_head_nil_owns hown] at hrun
          simp [Except.map] at hrun
        | cons d c2 =>
          rw [hc] at hown
          obtain ⟨k, hk, -, hfr, -⟩ := EraseAfter_head_owns hown hsz
          rw [hk] at hrun
          have e : k = n := by simpa [Except.map] using hrun
          subst e
          exact hfr.mono (fun a ha => by simp at ha; simp [addrs, ha])
      · cases c2 with
        | nil =>
          rw [hc] at hown
          rw [EraseAfter_cell_last_owns hown] at hrun
          simp [Except.map] at hrun
        | cons d c2 =>
          rw [hc] at hown
          obtain ⟨k, hk, -, hfr, -⟩ := EraseAfter_cell_owns hown hsz
          rw [hk] at hrun
          have e : k = n := by simpa [Except.map] using hrun
          subst e
          rw [hc]; exact hfr
    · simp only [Op.run] at hrun
      obtain ⟨p, sz⟩ := o
      by_cases hsz : sz = 0
      · subst hsz
        rw [Clear_empty ho] at hrun
        cases hrun
        exact Frame.refl _ _ _
      · obtain ⟨k, hk, -, hfr, -⟩ := Clear_owns hown (fun h0 => absurd h0 hsz)
        rw [hk] at hrun
        cases hrun
        exact hfr

/-- The copy constructor on a live list of a well-formed store: the new
object owns fresh cells with the same values, and no existing object
changes. -/
theorem ctorCopy_full {m : Mem α} {own : Nat → List (Nat × α)} {other : Nat}
    {o : SingleLinkedList} (hr : Rep m own) (ho : m.objs other = some o) :
    ∃ n news, ctorCopy m other = .ok (n, m.nobj) ∧ Rep n (Function.update own m.nobj news) ∧
      vals news = vals (own other) ∧ Owns n m.nobj news (own other).length ∧
      (∀ j, j < m.nobj → n.objs j = m.objs j) ∧ m.brk ≤ n.brk := by
  have hlt := hr.live_lt ho
  have hne : other ≠ m.nobj := Nat.ne_of_lt hlt
  have ho0 : (newObj m).1.objs other = some o := by
    simp [newObj, Function.update_noteq hne, ho]
  obtain ⟨n, news, hn, hrep, hvals, hown, -⟩ := ctorCopy_rep hr ho0
  have hr0 := rep_newObj hr
  have hown0 := hr0.owns other o ho0
  obtain ⟨p, hp, hs⟩ := hown0.obj
  obtain ⟨k, news2, hk, -, -, -, -, hobjs, -, hb, -⟩ :=
    Assign_owns (⟨p⟩ : BasicIterator) (vals (own other)) ((newObj m).1.brk + 1)
      (listIt_spec _) (newObj_owns m) (by simp [newObj])
      ⟨own other, hs, rfl, hown0.lt_brk⟩
      (by simpa [vals] using Nat.lt_succ_of_le hown0.length_le)
  have hcc : ctorCopy m other = .ok (k, m.nobj) := by
    simp only [ctorCopy, begin, getObj, bind, Except.bind]
    have e : (newObj m).2 = m.nobj := rfl
    rw [hp]
    simp only []
    rw [e, hk]
    rfl
  rw [hcc] at hn
  have e : k = n := by injection hn with h; exact (Prod.mk.inj h).1
  subst e
  refine ⟨k, news, hcc, hrep, hvals, hown, ?_, ?_⟩
  · intro j hj
    have h1 : j ≠ m.nobj := Nat.ne_of_lt hj
    rw [hobjs j h1 (by simp [newObj]; omega)]
    simp [newObj, Function.update_noteq h1]
  · rw [hb]; simp [newObj]

theorem destroy_full {m n : Mem α} {own : Nat → List (Nat × α)} {this : Nat}
    (hr : Rep m own) (hn : destroy m this = .ok n) :
    Rep n (Function.update own this []) ∧ n.objs this = none ∧
      ∀ j, j ≠ this → n.objs j = m.objs j := by
  refine ⟨rep_destroy hr hn, ?_⟩
  cases ho : m.objs this with
  | none => simp [destroy, Clear, IsEmpty, getObj, ho, bind, Except.bind] at hn
  | some o =>
    obtain ⟨k, hk, hdead, hfr, -⟩ := destroy_owns (hr.owns this o ho)
    rw [hk] at hn
    cases hn
    exact ⟨hdead, hfr.objs⟩

/-- Copy assignment between two different live lists of a well-formed store. -/
theorem copyAssign_full {m : Mem α} {own : Nat → List (Nat × α)} {this rhs : Nat}
    {a b : SingleLinkedList} (hr : Rep m own) (hne : this ≠ rhs)
    (ha : m.objs this = some a) (hb : m.objs rhs = some b) :
    ∃ n, copyAssign m this rhs = .ok n ∧ toList n this = .ok (vals (own rhs)) ∧
      GetSize n this = .ok (own rhs).length ∧ toList n rhs = .ok (vals (own rhs)) ∧
      GetSize n rhs = .ok b.size_ := by
  have hlt1 := hr.live_lt ha
  have hlt2 := hr.live_lt hb
  obtain ⟨n1, news, hn1, hr1, hvals, hown1, hobjs1, -⟩ := ctorCopy_full hr hb
  have ha1 : n1.objs this = some a := by rw [hobjs1 this hlt1]; exact ha
  have hb1 : n1.objs rhs = some b := by rw [hobjs1 rhs hlt2]; exact hb
  obtain ⟨q, hq, -⟩ := hown1.obj
  have hsw := swap_eq ha1 hq
  have hr2 := rep_swap hr1 hsw
  have hthis : this ≠ m.nobj := Nat.ne_of_lt hlt1
  have hrhs : rhs ≠ m.nobj := Nat.ne_of_lt hlt2
  have hrhs2 : rhs ≠ this := fun e => hne e.symm
  cases hd : destroy
      { n1 with objs := Function.update (Function.update n1.objs this
          (some ⟨q, (own rhs).length⟩)) m.nobj (some a) } m.nobj with
  | error e =>
    exfalso
    have hswapped : Owns
        { n1 with objs := Function.update (Function.update n1.objs this
            (some ⟨q, (own rhs).length⟩)) m.nobj (some a) } m.nobj
        (Function.update (Function.update (Function.update own m.nobj news) this
          (Function.update own m.nobj news m.nobj)) m.nobj
          (Function.update own m.nobj news this) m.nobj) a.size_ :=
      hr2.owns m.nobj a (by simp)
    obtain ⟨k, hk, -⟩ := destroy_owns hswapped
    rw [hk] at hd
    cases hd
  | ok n =>
    obtain ⟨hr3, -, hobjs3⟩ := destroy_full hr2 hd
    have hLn : n.objs this = some ⟨q, (own rhs).length⟩ := by
      rw [hobjs3 this hthis]; simp [Function.update_noteq hthis]
    have hRn : n.objs rhs = some b := by
      rw [hobjs3 rhs hrhs]
      simp [Function.update_noteq hrhs, Function.update_noteq hrhs2, hb1]
    have o1 := obs_of_rep hr3 hLn
    have o2 := obs_of_rep hr3 hRn
    simp only [Function.update_noteq hthis, Function.update_noteq hrhs,
      Function.update_noteq hrhs2, Function.update_same] at o1 o2
    refine ⟨n, ?_, ?_, o1.2, o2.1, o2.2⟩
    · simp only [copyAssign, hne, ne_eq, not_false_eq_true, if_true, bind, Except.bind]
      rw [hn1]
      simp only []
      rw [hsw]
      simp only []
      exact hd
    · rw [o1.1, hvals]

/-- The member `swap` exchanges what the two lists show. -/
theorem swap_obs {m : Mem α} {a b : Nat} {xs ys : List α} {sa sb : Nat}
    (hx : toList m a = .ok xs) (hsa : GetSize m a = .ok sa) (hy : toList m b = .ok ys)
    (hsb : GetSize m b = .ok sb) :
    ∃ n, swap m a b = .ok n ∧ toList n a = .ok ys ∧ GetSize n a = .ok sb ∧
      toList n b = .ok xs ∧ GetSize n b = .ok sa ∧ begin n a = begin m b ∧
      begin n b = begin m a := by
  obtain ⟨oa, ca, hoa, hsega, hva, hla⟩ := seg_of_toList hx
  obtain ⟨ob, cb, hob, hsegb, hvb, hlb⟩ := seg_of_toList hy
  have ea : oa.size_ = sa := by simpa [GetSize, getObj, hoa] using hsa
  have eb : ob.size_ = sb := by simpa [GetSize, getObj, hob] using hsb
  have hA : (Function.update (Function.update m.objs a (some ob)) b (some oa)) a = some ob := by
    by_cases h : a = b
    · subst h
      rw [hoa] at hob
      cases hob
      simp
    · simp [Function.update_noteq h]
  have hB : (Function.update (Function.update m.objs a (some ob)) b (some oa)) b = some oa := by
    simp
  refine ⟨_, swap_eq hoa hob, ?_, ?_, ?_, ?_, ?_, ?_⟩
  · simp only [toList, begin, getObj, hA, bind, Except.bind]
    rw [← hvb]
    exact collect_of_seg hsegb (Nat.lt_succ_of_le hlb)
  · simp [GetSize, getObj, hA, eb]
  · simp only [toList, begin, getObj, hB, bind, Except.bind]
    rw [← hva]
    exact collect_of_seg hsega (Nat.lt_succ_of_le hla)
  · simp [GetSize, getObj, hB, ea]
  · simp [begin, getObj, hA, hob]
  · simp [begin, getObj, hB, hoa]

/-- The postcondition of `InsertAfter` below `SIZE_MAX`: for every list of a
reachable store with elements `xs` and size `sz < SIZE_MAX`, every position
`pos` other than `end()` reached from `before_begin()` by `i` increments
(`i = 0` is the sentinel) and every value `v`, `InsertAfter(pos, v)` succeeds,
the list then holds `xs` with `v` inserted at index `i`, `GetSize()` is
`sz + 1`, and the returned cursor dereferences to `v` and is the successor of
`pos`; `InsertAfter` with the end cursor fails its assertion. -/
theorem InsertAfter_post_below_max (m : Mem α) (this : Nat) (xs : List α) (sz i : Nat)
    (pos : BasicIterator) (v : α) (hm : Reachable m) (hx : toList m this = .ok xs)
    (hs : GetSize m this = .ok sz) (hlt : sz < SIZE_MAX)
    (hp : advance m i (before_begin this) = .ok pos) (hne : pos ≠ end_) :
    (∃ n it, InsertAfter m this pos v = .ok (n, it) ∧
      toList n this = .ok (xs.take i ++ v :: xs.drop i) ∧ GetSize n this = .ok (sz + 1) ∧
      it.deref n = .ok v ∧ pos.incr n = .ok it) ∧
    InsertAfter m this end_ v = .error .assertion := by
  refine ⟨?_, InsertAfter_null v⟩
  obtain ⟨cells, hown, hvals⟩ := hm.owns_full hx hs
  subst hvals
  have hinc := incSize_of_lt hlt
  rcases pos_split hown hp hne with ⟨rfl, rfl⟩ | ⟨k, c1, c, c2, rfl, rfl, hlen, rfl⟩
  · obtain ⟨n, h1, -, hown1, -⟩ := InsertAfter_head_owns v hown
    rw [hinc] at hown1
    have hown1' : Owns n this ([] ++ (m.brk, v) :: cells) (sz + 1) := hown1
    refine ⟨n, _, h1, ?_, GetSize_of_owns hown1, deref_cell_owns hown1', ?_⟩
    · rw [toList_of_owns hown1]; simp [vals]
    · rw [incr_head_owns hown1]; rfl
  · obtain ⟨n, h1, hown1, -⟩ := InsertAfter_cell_owns v hown
    rw [hinc] at hown1
    have hown1' : Owns n this ((c1 ++ [c]) ++ (m.brk, v) :: c2) (sz + 1) := by
      simpa using hown1
    refine ⟨n, _, h1, ?_, GetSize_of_owns hown1, deref_cell_owns hown1', ?_⟩
    · rw [toList_of_owns hown1]
      have hl : (List.map Prod.snd c1).length = k := by simpa using hlen
      have e : vals (c1 ++ c :: c2) = List.map Prod.snd c1 ++ c.2 :: List.map Prod.snd c2 := by
        simp [vals]
      rw [e, take_succ_mid hl, drop_succ_mid hl]
      simp [vals]
    · rw [incr_cell_owns hown1]; rfl

/-- The postcondition of `EraseAfter` when the counter is not 0: for every
list of a reachable store with elements `xs` and `GetSize()` other than 0, and
every position `pos` other than `end()` reached from `before_begin()` by `i`
increments: if a node follows `pos` (`i < |xs|`), `EraseAfter(pos)` succeeds,
the list then holds `xs` without the element at index `i` and the returned
cursor is the new successor of `pos`, which is `end()` exactly when `pos` is
now last; if no node follows `pos`, `EraseAfter` fails its assertion, as it
does for the end cursor. -/
theorem EraseAfter_post_of_size_ne_zero (m : Mem α) (this : Nat) (xs : List α) (sz i : Nat)
    (pos : BasicIterator) (hm : Reachable m) (hx : toList m this = .ok xs)
    (hs : GetSize m this = .ok sz) (hsz : sz ≠ 0)
    (hp : advance m i (before_begin this) = .ok pos) (hne : pos ≠ end_) :
    (if i < xs.length then
      ∃ n r, EraseAfter m this pos = .ok (n, r) ∧
        toList n this = .ok (xs.take i ++ xs.drop (i + 1)) ∧ pos.incr n = .ok r ∧
        (r = end_ ↔ i + 1 = xs.length)
    else EraseAfter m this pos = .error .assertion) ∧
    EraseAfter m this end_ = .error .assertion := by
  refine ⟨?_, EraseAfter_null⟩
  obtain ⟨cells, hown, hvals⟩ := hm.owns_full hx hs
  subst hvals
  rcases pos_split hown hp hne with ⟨rfl, rfl⟩ | ⟨k, c1, c, c2, rfl, rfl, hlen, rfl⟩
  · cases cells with
    | nil => simpa [vals] using EraseAfter_head_nil_owns hown
    | cons d c2 =>
      obtain ⟨n, h1, hown1, -⟩ := EraseAfter_head_owns hown hsz
      have hpos : 0 < (vals (d :: c2)).length := by simp [vals]
      rw [if_pos hpos]
      refine ⟨n, _, h1, ?_, incr_head_owns hown1, ?_⟩
      · rw [toList_of_owns hown1]; simp [vals]
      · cases c2 with
        | nil => simp [headPtr, end_, vals]
        | cons e c3 => simp [headPtr, end_, vals]
  · cases c2 with
    | nil =>
      have hnot : ¬ k + 1 < (vals (c1 ++ [c])).length := by simp [vals, hlen]
      rw [if_neg hnot]
      exact EraseAfter_cell_last_owns hown
    | cons d c2 =>
      obtain ⟨n, h1, hown1, -⟩ := EraseAfter_cell_owns hown hsz
      have hpos : k + 1 < (vals (c1 ++ c :: d :: c2)).length := by simp [vals, hlen]
      rw [if_pos hpos]
      refine ⟨n, _, h1, ?_, incr_cell_owns hown1, ?_⟩
      · rw [toList_of_owns hown1]
        have hl : (List.map Prod.snd c1).length = k := by simpa using hlen
        have hl2 : (List.map Prod.snd c1 ++ [c.2]).length = k + 1 := by simp [hl]
        have e : vals (c1 ++ c :: d :: c2) =
            (List.map Prod.snd c1 ++ [c.2]) ++ d.2 :: List.map Prod.snd c2 := by
          simp [vals]
        have e2 : vals (c1 ++ c :: d :: c2) =
            List.map Prod.snd c1 ++ c.2 :: (d.2 :: List.map Prod.snd c2) := by
          simp [vals]
        rw [e2, take_succ_mid hl, ← e2, e, drop_succ_mid hl2]
        simp [vals]
      · cases c2 with
        | nil => simp [headPtr, end_, vals, hlen]
        | cons e c3 => simp [headPtr, end_, vals, hlen]; omega

theorem reachable_memShortLong : Reachable memShortLong :=
  reachable_runOps [.ctorInit [1], .ctorInit [1, 2]] Mem.init memShortLong Reachable.init
    ⟨trivial, trivial, trivial⟩ (memOf_ok rfl)

/-- C13: for every list `L` of a reachable store, with elements `xs` and
size `sz`, the copy constructor returns a new list `M` different from `L`
that holds `xs`; `M == L` is true right after the copy; `L` still holds `xs`
with size `sz`; and after any mutation of `M` within its precondition
(`PushFront`, `PopFront`, `InsertAfter`, `EraseAfter`, `Clear`) `L` still
holds `xs` with size `sz`. -/
theorem C13_copy_is_equal_and_independent [DecidableEq α] (m : Mem α) (L : Nat)
    (xs : List α) (sz : Nat) (hm : Reachable m) (hx : toList m L = .ok xs)
    (hs : GetSize m L = .ok sz) :
    ∃ n M, ctorCopy m L = .ok (n, M) ∧ M ≠ L ∧ toList n M = .ok xs ∧
      operatorEq n M L = .ok true ∧ toList n L = .ok xs ∧ GetSize n L = .ok sz ∧
      ∀ (op : Op α) (k : Mem α), op.mutates = some M → op.pre n → op.run n = .ok k →
        toList k L = .ok xs ∧ GetSize k L = .ok sz := by
  obtain ⟨own, hr⟩ := hm.inv
  obtain ⟨o, ho, hvals⟩ := toList_eq_of_rep hr hx
  have hlt := hr.live_lt ho
  have hML : m.nobj ≠ L := fun e => Nat.lt_irrefl _ (e ▸ hlt)
  have hLM : L ≠ m.nobj := fun e => hML e.symm
  obtain ⟨n, news, hn, hrn, hnews, hown, hobjs, hbrk⟩ := ctorCopy_full hr ho
  have hoL : n.objs L = some o := by rw [hobjs L hlt]; exact ho
  have hLn := obs_of_rep hrn hoL
  simp only [Function.update_noteq hLM] at hLn
  have hxM : toList n m.nobj = .ok xs := by
    rw [toList_of_owns hown, hnews, hvals]
  have hxL : toList n L = .ok xs := by rw [hLn.1, hvals]
  have hsL : GetSize n L = .ok sz := by
    have := (obs_of_rep hr ho).2
    rw [hs] at this
    rw [hLn.2, this]
  refine ⟨n, m.nobj, hn, hML, hxM, ?_, hxL, hsL, ?_⟩
  · rw [operatorEq_of_toList hxM hxL, equalSpec_self]
  · intro op k hmut hpre hrun
    have hfr := mutation_frame hrn hmut hpre hrun
    have := frame_keeps hrn hLM (hfr.objs L hLM) hfr.heap hfr.brk
    rw [this.1, this.2]
    exact ⟨hxL, hsL⟩

/-- Witness of C13 on the list `{1, 2, 3}`; the last part evaluates one
mutation of the copy, `PushFront(7)`, and reads the original back. -/
theorem C13_copy_is_equal_and_independent_witness :
    Reachable mem123 ∧ toList mem123 0 = .ok [1, 2, 3] ∧ GetSize mem123 0 = .ok 3 ∧
      (∃ n M, ctorCopy mem123 0 = .ok (n, M) ∧ M ≠ 0 ∧ toList n M = .ok [1, 2, 3] ∧
        operatorEq n M 0 = .ok true ∧ toList n 0 = .ok [1, 2, 3] ∧ GetSize n 0 = .ok 3 ∧
        ∀ (op : Op Nat) (k : Mem Nat), op.mutates = some M → op.pre n → op.run n = .ok k →
          toList k 0 = .ok [1, 2, 3] ∧ GetSize k 0 = .ok 3) ∧
      ((ctorCopy mem123 0).bind fun r =>
        (PushFront r.1 r.2 7).bind fun k =>
          (toList k r.2).bind fun ys => (toList k 0).bind fun zs => .ok (ys, zs)) =
        .ok ([7, 1, 2, 3], [1, 2, 3]) :=
  ⟨reachable_mem123, rfl, rfl,
    C13_copy_is_equal_and_independent mem123 0 [1, 2, 3] 3 reachable_mem123 rfl rfl, rfl⟩

/-- C14: for lists `L` and `R` of a reachable store, with elements `xs` and
`ys`, the copy assignment `L = R` succeeds, afterwards `L` holds `ys` and `R`
still holds `ys` with its size unchanged; the self-assignment `L = L` leaves
the store as it is, so `L` keeps its elements and its `GetSize()`. -/
theorem C14_copy_assignment (m : Mem α) (L R : Nat) (xs ys : List α) (sl sr : Nat)
    (hm : Reachable m) (hx : toList m L = .ok xs) (hsl : GetSize m L = .ok sl)
    (hy : toList m R = .ok ys) (hsr : GetSize m R = .ok sr) :
    (∃ n, copyAssign m L R = .ok n ∧ toList n L = .ok ys ∧ toList n R = .ok ys ∧
      GetSize n R = .ok sr) ∧
    (∃ n, copyAssign m L L = .ok n ∧ n.objs = m.objs ∧ n.heap = m.heap ∧
      toList n L = .ok xs ∧ GetSize n L = .ok sl) := by
  have hself : copyAssign m L L = .ok m := by simp [copyAssign, pure, Except.pure]
  refine ⟨?_, m, hself, rfl, rfl, hx, hsl⟩
  by_cases hne : L = R
  · subst hne
    rw [hx] at hy
    injection hy with e
    subst e
    exact ⟨m, hself, hx, hx, hsr⟩
  · obtain ⟨own, hr⟩ := hm.inv
    obtain ⟨a, ha, -⟩ := toList_eq_of_rep hr hx
    obtain ⟨b, hb, hvb⟩ := toList_eq_of_rep hr hy
    obtain ⟨n, hn, h1, -, h3, h4⟩ := copyAssign_full hr hne ha hb
    have hsb : GetSize m R = .ok b.size_ := (obs_of_rep hr hb).2
    rw [hsr] at hsb
    refine ⟨n, hn, by rw [h1, hvb], by rw [h3, hvb], by rw [h4, hsb]⟩

/-- Witness of C14 on `L = {1}` and `R = {1, 2}`. -/
theorem C14_copy_assignment_witness :
    Reachable memShortLong ∧ toList memShortLong 0 = .ok [1] ∧
      GetSize memShortLong 0 = .ok 1 ∧ toList memShortLong 2 = .ok [1, 2] ∧
      GetSize memShortLong 2 = .ok 2 ∧
      (∃ n, copyAssign memShortLong 0 2 = .ok n ∧ toList n 0 = .ok [1, 2] ∧
        toList n 2 = .ok [1, 2] ∧ GetSize n 2 = .ok 2) ∧
      (∃ n, copyAssign memShortLong 0 0 = .ok n ∧ n.objs = memShortLong.objs ∧
        n.heap = memShortLong.heap ∧ toList n 0 = .ok [1] ∧ GetSize n 0 = .ok 1) :=
  ⟨reachable_memShortLong, rfl, rfl, rfl, rfl,
    C14_copy_assignment memShortLong 0 2 [1] [1, 2] 1 2 reachable_memShortLong rfl rfl rfl
      rfl⟩

/-- C15: for lists `a` and `b` with elements `xs`, `ys` and sizes `sa`, `sb`,
the member `a.swap(b)` and the free function `swap(a, b)` give the same
store, in which `a` has the elements and size `b` had and `b` those `a` had,
with the first-node pointers exchanged rather than copied; swapping a second
time restores both lists. -/
theorem C15_swap_exchanges_lists (m : Mem α) (a b : Nat) (xs ys : List α) (sa sb : Nat)
    (hx : toList m a = .ok xs) (hsa : GetSize m a = .ok sa) (hy : toList m b = .ok ys)
    (hsb : GetSize m b = .ok sb) :
    ∃ n k, swap m a b = .ok n ∧ freeSwap m a b = .ok n ∧
      toList n a = .ok ys ∧ GetSize n a = .ok sb ∧ toList n b = .ok xs ∧
      GetSize n b = .ok sa ∧ begin n a = begin m b ∧ begin n b = begin m a ∧
      swap n a b = .ok k ∧ toList k a = .ok xs ∧ GetSize k a = .ok sa ∧
      toList k b = .ok ys ∧ GetSize k b = .ok sb := by
  obtain ⟨n, hn, h1, h2, h3, h4, h5, h6⟩ := swap_obs hx hsa hy hsb
  obtain ⟨k, hk, g1, g2, g3, g4, -⟩ := swap_obs h1 h2 h3 h4
  exact ⟨n, k, hn, hn, h1, h2, h3, h4, h5, h6, hk, g1, g2, g3, g4⟩

/-- Witness of C15 on `a = {1}` and `b = {1, 2}`. -/
theorem C15_swap_exchanges_lists_witness :
    toList memShortLong 0 = .ok [1] ∧ GetSize memShortLong 0 = .ok 1 ∧
      toList memShortLong 2 = .ok [1, 2] ∧ GetSize memShortLong 2 = .ok 2 ∧
      ∃ n k, swap memShortLong 0 2 = .ok n ∧ freeSwap memShortLong 0 2 = .ok n ∧
        toList n 0 = .ok [1, 2] ∧ GetSize n 0 = .ok 2 ∧ toList n 2 = .ok [1] ∧
        GetSize n 2 = .ok 1 ∧ begin n 0 = begin memShortLong 2 ∧
        begin n 2 = begin memShortLong 0 ∧
        swap n 0 2 = .ok k ∧ toList k 0 = .ok [1] ∧ GetSize k 0 = .ok 1 ∧
        toList k 2 = .ok [1, 2] ∧ GetSize k 2 = .ok 2 :=
  ⟨rfl, rfl, rfl, rfl,
    C15_swap_exchanges_lists memShortLong 0 2 [1] [1, 2] 1 2 rfl rfl rfl rfl⟩

/-- The postcondition of `PushFront` below `SIZE_MAX`: for every list of a
reachable store with elements `xs` and size `sz < SIZE_MAX` and every value
`v`, `PushFront(v)` succeeds, the list then holds `v` followed by `xs`, and
`GetSize()` is `sz + 1`. -/
theorem PushFront_post_below_max (m : Mem α) (this : Nat) (xs : List α) (sz : Nat) (v : α)
    (hm : Reachable m) (hx : toList m this = .ok xs) (hs : GetSize m this = .ok sz)
    (hlt : sz < SIZE_MAX) :
    ∃ n, PushFront m this v = .ok n ∧ toList n this = .ok (v :: xs) ∧
      GetSize n this = .ok (sz + 1) := by
  obtain ⟨cells, hown, hvals⟩ := hm.owns_full hx hs
  obtain ⟨n, h1, hown1, -⟩ := PushFront_owns v hown
  rw [incSize_of_lt hlt] at hown1
  exact ⟨n, h1, by rw [toList_of_owns hown1, ← hvals]; simp [vals], GetSize_of_owns hown1⟩

/-- Insert-then-erase at the same position below `SIZE_MAX`: for every list
of a reachable store with elements `xs` and size `sz < SIZE_MAX`, every
position `pos` other than `end()` reached from `before_begin()` by `i`
increments and every value `v`, `InsertAfter(pos, v)` followed by
`EraseAfter(pos)` succeeds and the list again holds `xs`; the cursor returned
by `EraseAfter` is the node that followed `pos` in the original list, which is
`end()` exactly when `pos` was last. -/
theorem InsertAfter_EraseAfter_below_max (m : Mem α) (this : Nat) (xs : List α)
    (sz i : Nat) (pos : BasicIterator) (v : α) (hm : Reachable m)
    (hx : toList m this = .ok xs) (hs : GetSize m this = .ok sz) (hlt : sz < SIZE_MAX)
    (hp : advance m i (before_begin this) = .ok pos) (hne : pos ≠ end_) :
    ∃ n it k r, InsertAfter m this pos v = .ok (n, it) ∧ EraseAfter n this pos = .ok (k, r) ∧
      toList k this = .ok xs ∧ pos.incr m = .ok r ∧ pos.incr k = .ok r ∧
      (r = end_ ↔ i = xs.length) := by
  obtain ⟨cells, hown, hvals⟩ := hm.owns_full hx hs
  subst hvals
  have hinc := incSize_of_lt hlt
  rcases pos_split hown hp hne with ⟨rfl, rfl⟩ | ⟨j, c1, c, c2, rfl, rfl, hlen, rfl⟩
  · obtain ⟨n, h1, -, hown1, -⟩ := InsertAfter_head_owns v hown
    rw [hinc] at hown1
    obtain ⟨k, h2, hown2, -⟩ := EraseAfter_head_owns hown1 (Nat.succ_ne_zero _)
    refine ⟨n, _, k, _, h1, h2, toList_of_owns hown2, incr_head_owns hown,
      incr_head_owns hown2, ?_⟩
    cases cells with
    | nil => simp [headPtr, end_, vals]
    | cons e c3 => simp [headPtr, end_, vals]
  · obtain ⟨n, h1, hown1, -⟩ := InsertAfter_cell_owns v hown
    rw [hinc] at hown1
    obtain ⟨k, h2, hown2, -⟩ := EraseAfter_cell_owns hown1 (Nat.succ_ne_zero _)
    refine ⟨n, _, k, _, h1, h2, toList_of_owns hown2, incr_cell_owns hown,
      incr_cell_owns hown2, ?_⟩
    cases c2 with
    | nil => simp [headPtr, end_, vals, hlen]
    | cons e c3 => simp [headPtr, end_, vals, hlen]

/-- C18: for every live list with size `sz` and every value `v`,
`InsertAfter(before_begin(), v)` and `PushFront(v)` produce the same store
(hence the same element sequence and `GetSize()`, which is `sz` incremented
as a `size_t`: `sz + 1`, wrapped to 0 past `SIZE_MAX`), the
cursor `InsertAfter` returns is the new `begin()`, and advancing
`before_begin()` once yields `begin()`, before and after; on a
default-constructed (empty) list that is the end cursor. -/
theorem C18_front_insertion_through_sentinel (m : Mem α) (this : Nat) (sz : Nat) (v : α)
    (hs : GetSize m this = .ok sz) :
    (∃ n it, InsertAfter m this (before_begin this) v = .ok (n, it) ∧
      PushFront m this v = .ok n ∧ GetSize n this = .ok (incSize sz) ∧
      begin n this = .ok it ∧ (before_begin this).incr n = .ok it) ∧
    (before_begin this).incr m = begin m this ∧
    (before_begin (ctorDefault m).2).incr (ctorDefault m).1 = .ok end_ ∧
    begin (ctorDefault m).1 (ctorDefault m).2 = .ok end_ := by
  cases ho : m.objs this with
  | none => simp [GetSize, getObj, ho] at hs
  | some o =>
    obtain ⟨p, sz1⟩ := o
    have e : sz1 = sz := by simpa [GetSize, getObj, ho] using hs
    subst e
    refine ⟨⟨_, _, InsertAfter_eq_head v ho, PushFront_eq v ho, ?_, ?_, ?_⟩, ?_, ?_, ?_⟩
    · simp [GetSize, getObj]
    · simp [begin, getObj]
    · simp [before_begin, BasicIterator.incr, nextOf]
    · simp [before_begin, BasicIterator.incr, nextOf, begin, getObj, ho]
    · simp [before_begin, BasicIterator.incr, nextOf, ctorDefault, newObj, end_]
    · simp [begin, getObj, ctorDefault, newObj, end_]

/-- Witness of C18 on the list `{1, 2, 3}` and the value 7: the size becomes
4. -/
theorem C18_front_insertion_through_sentinel_witness :
    GetSize mem123 0 = .ok 3 ∧ incSize 3 = 4 ∧
      ((∃ n it, InsertAfter mem123 0 (before_begin 0) 7 = .ok (n, it) ∧
        PushFront mem123 0 7 = .ok n ∧ GetSize n 0 = .ok (incSize 3) ∧
        begin n 0 = .ok it ∧ (before_begin 0).incr n = .ok it) ∧
      (before_begin 0).incr mem123 = begin mem123 0 ∧
      (before_begin (ctorDefault mem123).2).incr (ctorDefault mem123).1 = .ok end_ ∧
      begin (ctorDefault mem123).1 (ctorDefault mem123).2 = .ok end_) :=
  ⟨rfl, rfl, C18_front_insertion_through_sentinel mem123 0 3 7 rfl⟩

/-- C20: for lists `a` and `b` with element sequences `xs` and `ys`: when
`a` has no more elements than `b`, `operator==(a, b)` returns without a fault
and returns true exactly when `xs` is a prefix of `ys`; when `a` has more
elements than `b` and `ys` is a prefix of `xs`, the comparison dereferences the
end cursor of `b` and the assertion of `operator*` fails (and it returns
false when `ys` is not a prefix of `xs`). -/
theorem C20_operatorEq_is_prefix_test [DecidableEq α] (m : Mem α) (a b : Nat)
    (xs ys : List α) (ha : toList m a = .ok xs) (hb : toList m b = .ok ys) :
    operatorEq m a b =
      if xs.length ≤ ys.length then .ok (decide (xs <+: ys))
      else if ys <+: xs then .error .assertion
      else .ok false := by
  rw [operatorEq_of_toList ha hb]
  by_cases hl : xs.length ≤ ys.length
  · rw [if_pos hl, equalSpec_of_le xs ys hl]
  · rw [if_neg hl, equalSpec_of_gt xs ys (by omega)]

/-- Witness of C20 on `a = {1}` and `b = {1, 2}`. -/
theorem C20_operatorEq_is_prefix_test_witness :
    toList memShortLong 0 = .ok [1] ∧ toList memShortLong 2 = .ok [1, 2] ∧
      operatorEq memShortLong 0 2 =
        (if ([1] : List Nat).length ≤ ([1, 2] : List Nat).length then
          .ok (decide (([1] : List Nat) <+: [1, 2]))
        else if ([1, 2] : List Nat) <+: [1] then .error .assertion
        else .ok false) :=
  ⟨rfl, rfl, C20_operatorEq_is_prefix_test memShortLong 0 2 [1] [1, 2] rfl rfl⟩

end Sll
